import Mathlib

/-!
# Verification of the hierarchical interval-pruning tape renderer (mpr)

This file gives a shallow embedding, over the rationals, of the tape engine in
`src/src/renderable.cu`, `src/src/v3.cu` and `src/lib/renderable.hpp`, and
proves (or refutes) the specification claims about it.

Modelling conventions:
* GPU floats are modelled as `ℚ`.  All arithmetic the claims depend on
  (add, sub, mul, square, abs, min, max, copy) is exact in both models, so
  rational semantics is faithful for those operators.  The square-root,
  division and transcendental kernels live in `gpu_interval.hpp`, which is not
  part of the sources; they are outside the rational fragment and no claim
  depends on them, so the embedded opcode sets omit them.
* The interval kernels themselves (`GInterval` operations) are implemented in
  the absent header `gpu_interval.hpp`; they are modelled from the spec
  ("operations honor inclusion monotonicity... never narrower than the true
  range"), except for the MIN/MAX choice logic, which is taken verbatim from
  `intervalOp` in `src/src/renderable.cu` (lines 45-62).
* Device arrays are modelled as total functions `ℕ → _` with pointwise
  update; kernels are sequentialized into per-item state transformers.
-/

/-- A closed interval of rationals, modelling the GPU `Interval` class
(`gpu_interval.hpp`, absent from the sources; data model from spec §4.1:
"Interval `[l, u]` with l ≤ u"). -/
structure GInterval where
  lo : ℚ
  hi : ℚ
  deriving DecidableEq, Repr

namespace GInterval

/-- Membership of a point in an interval. -/
def memQ (x : ℚ) (i : GInterval) : Prop := i.lo ≤ x ∧ x ≤ i.hi

instance (x : ℚ) (i : GInterval) : Decidable (memQ x i) := by
  unfold memQ; infer_instance

/-- Well-formedness: lower bound at most upper bound (spec §4.1). -/
def wf (i : GInterval) : Prop := i.lo ≤ i.hi

instance (i : GInterval) : Decidable (wf i) := by
  unfold wf; infer_instance

/-- Degenerate interval holding one value (`GInterval(imm)` constructor). -/
def ofQ (x : ℚ) : GInterval := ⟨x, x⟩

/-- Modelled from the spec: interval addition. -/
def iAdd (a b : GInterval) : GInterval := ⟨a.lo + b.lo, a.hi + b.hi⟩

/-- Modelled from the spec: interval negation. -/
def iNeg (a : GInterval) : GInterval := ⟨-a.hi, -a.lo⟩

/-- Modelled from the spec: interval subtraction. -/
def iSub (a b : GInterval) : GInterval := ⟨a.lo - b.hi, a.hi - b.lo⟩

/-- Modelled from the spec: interval multiplication (min/max of the four
corner products). -/
def iMul (a b : GInterval) : GInterval :=
  ⟨min (min (a.lo * b.lo) (a.lo * b.hi)) (min (a.hi * b.lo) (a.hi * b.hi)),
   max (max (a.lo * b.lo) (a.lo * b.hi)) (max (a.hi * b.lo) (a.hi * b.hi))⟩

/-- Modelled from the spec: interval square (tight, sign-aware). -/
def iSquare (a : GInterval) : GInterval :=
  if 0 ≤ a.lo then ⟨a.lo * a.lo, a.hi * a.hi⟩
  else if a.hi ≤ 0 then ⟨a.hi * a.hi, a.lo * a.lo⟩
  else ⟨0, max (a.lo * a.lo) (a.hi * a.hi)⟩

/-- Modelled from the spec: interval absolute value. -/
def iAbs (a : GInterval) : GInterval :=
  if 0 ≤ a.lo then a
  else if a.hi ≤ 0 then ⟨-a.hi, -a.lo⟩
  else ⟨0, max (-a.lo) a.hi⟩

/-- GInterval minimum with choice code, transcribed from `intervalOp`
(`src/src/renderable.cu` lines 45-53): choice 1 when `upper(lhs) < lower(rhs)`
(return lhs), choice 2 when `upper(rhs) < lower(lhs)` (return rhs),
otherwise choice 0 with the componentwise minimum. -/
def iMinC (a b : GInterval) : GInterval × ℕ :=
  if a.hi < b.lo then (a, 1)
  else if b.hi < a.lo then (b, 2)
  else (⟨min a.lo b.lo, min a.hi b.hi⟩, 0)

/-- GInterval maximum with choice code, transcribed from `intervalOp`
(`src/src/renderable.cu` lines 54-62): choice 1 when `lower(lhs) > upper(rhs)`
(return lhs), choice 2 when `lower(rhs) > upper(lhs)` (return rhs),
otherwise choice 0 with the componentwise maximum. -/
def iMaxC (a b : GInterval) : GInterval × ℕ :=
  if a.lo > b.hi then (a, 1)
  else if b.lo > a.hi then (b, 2)
  else (⟨max a.lo b.lo, max a.hi b.hi⟩, 0)

/-! ## Inclusion soundness of the interval kernels -/

theorem memQ_ofQ (x : ℚ) : memQ x (ofQ x) := ⟨le_refl x, le_refl x⟩

theorem wf_ofQ (x : ℚ) : wf (ofQ x) := le_refl x

theorem memQ_iAdd {x y : ℚ} {a b : GInterval} (hx : memQ x a) (hy : memQ y b) :
    memQ (x + y) (iAdd a b) :=
  ⟨add_le_add hx.1 hy.1, add_le_add hx.2 hy.2⟩

theorem wf_iAdd {a b : GInterval} (ha : wf a) (hb : wf b) : wf (iAdd a b) :=
  add_le_add ha hb

theorem memQ_iNeg {x : ℚ} {a : GInterval} (hx : memQ x a) : memQ (-x) (iNeg a) :=
  ⟨neg_le_neg hx.2, neg_le_neg hx.1⟩

theorem wf_iNeg {a : GInterval} (ha : wf a) : wf (iNeg a) := neg_le_neg ha

theorem memQ_iSub {x y : ℚ} {a b : GInterval} (hx : memQ x a) (hy : memQ y b) :
    memQ (x - y) (iSub a b) :=
  ⟨sub_le_sub hx.1 hy.2, sub_le_sub hx.2 hy.1⟩

theorem wf_iSub {a b : GInterval} (ha : wf a) (hb : wf b) : wf (iSub a b) :=
  sub_le_sub ha hb

theorem memQ_iMul {x y : ℚ} {a b : GInterval} (hx : memQ x a) (hy : memQ y b) :
    memQ (x * y) (iMul a b) := by
  obtain ⟨hx1, hx2⟩ := hx
  obtain ⟨hy1, hy2⟩ := hy
  constructor
  · -- the lower corner bound: some corner product is below x*y
    show min (min (a.lo * b.lo) (a.lo * b.hi)) (min (a.hi * b.lo) (a.hi * b.hi)) ≤ x * y
    rcases le_total 0 y with hy0 | hy0
    · rcases le_total 0 a.lo with ha0 | ha0
      · have h1 : a.lo * b.lo ≤ a.lo * y := mul_le_mul_of_nonneg_left hy1 ha0
        have h2 : a.lo * y ≤ x * y := mul_le_mul_of_nonneg_right hx1 hy0
        exact le_trans (min_le_of_left_le (min_le_left _ _)) (le_trans h1 h2)
      · have h1 : a.lo * b.hi ≤ a.lo * y := by nlinarith
        have h2 : a.lo * y ≤ x * y := mul_le_mul_of_nonneg_right hx1 hy0
        exact le_trans (min_le_of_left_le (min_le_right _ _)) (le_trans h1 h2)
    · rcases le_total 0 a.hi with ha0 | ha0
      · have h1 : a.hi * b.lo ≤ a.hi * y := mul_le_mul_of_nonneg_left hy1 ha0
        have h2 : a.hi * y ≤ x * y := by nlinarith
        exact le_trans (min_le_of_right_le (min_le_left _ _)) (le_trans h1 h2)
      · have h1 : a.hi * b.hi ≤ a.hi * y := by nlinarith
        have h2 : a.hi * y ≤ x * y := by nlinarith
        exact le_trans (min_le_of_right_le (min_le_right _ _)) (le_trans h1 h2)
  · -- the upper corner bound: some corner product is above x*y
    show x * y ≤ max (max (a.lo * b.lo) (a.lo * b.hi)) (max (a.hi * b.lo) (a.hi * b.hi))
    rcases le_total 0 y with hy0 | hy0
    · rcases le_total 0 a.hi with ha0 | ha0
      · have h1 : x * y ≤ a.hi * y := mul_le_mul_of_nonneg_right hx2 hy0
        have h2 : a.hi * y ≤ a.hi * b.hi := mul_le_mul_of_nonneg_left hy2 ha0
        exact le_trans (le_trans h1 h2) (le_max_of_le_right (le_max_right _ _))
      · have h1 : x * y ≤ a.hi * y := mul_le_mul_of_nonneg_right hx2 hy0
        have h2 : a.hi * y ≤ a.hi * b.lo := by nlinarith
        exact le_trans (le_trans h1 h2) (le_max_of_le_right (le_max_left _ _))
    · rcases le_total 0 a.lo with ha0 | ha0
      · have h1 : x * y ≤ a.lo * y := by nlinarith
        have h2 : a.lo * y ≤ a.lo * b.hi := by nlinarith
        exact le_trans (le_trans h1 h2) (le_max_of_le_left (le_max_right _ _))
      · have h1 : x * y ≤ a.lo * y := by nlinarith
        have h2 : a.lo * y ≤ a.lo * b.lo := by nlinarith
        exact le_trans (le_trans h1 h2) (le_max_of_le_left (le_max_left _ _))

theorem wf_iMul {a b : GInterval} : wf (iMul a b) := by
  show min (min (a.lo * b.lo) (a.lo * b.hi)) (min (a.hi * b.lo) (a.hi * b.hi))
      ≤ max (max (a.lo * b.lo) (a.lo * b.hi)) (max (a.hi * b.lo) (a.hi * b.hi))
  exact le_trans (min_le_of_left_le (min_le_left _ _))
    (le_max_of_le_left (le_max_left _ _))

theorem memQ_iSquare {x : ℚ} {a : GInterval} (hx : memQ x a) :
    memQ (x * x) (iSquare a) := by
  obtain ⟨h1, h2⟩ := hx
  unfold iSquare
  split
  · next h =>
    have hx0 : 0 ≤ x := le_trans h h1
    exact ⟨mul_le_mul h1 h1 h hx0, mul_le_mul h2 h2 hx0 (le_trans hx0 h2)⟩
  · next h =>
    push_neg at h
    split
    · next h' =>
      have hx0 : x ≤ 0 := le_trans h2 h'
      constructor
      · show a.hi * a.hi ≤ x * x
        nlinarith [mul_nonneg (show (0:ℚ) ≤ a.hi - x by linarith)
          (show (0:ℚ) ≤ -(x + a.hi) by linarith)]
      · show x * x ≤ a.lo * a.lo
        nlinarith [mul_nonneg (show (0:ℚ) ≤ x - a.lo by linarith)
          (show (0:ℚ) ≤ -(a.lo + x) by linarith)]
    · next h' =>
      push_neg at h'
      refine ⟨mul_self_nonneg x, ?_⟩
      rcases le_total 0 x with hx0 | hx0
      · exact le_max_of_le_right (mul_le_mul h2 h2 hx0 (le_trans hx0 h2))
      · refine le_max_of_le_left ?_
        nlinarith [mul_nonneg (show (0:ℚ) ≤ x - a.lo by linarith)
          (show (0:ℚ) ≤ -(a.lo + x) by linarith)]

theorem wf_iSquare {a : GInterval} (ha : wf a) : wf (iSquare a) := by
  unfold wf iSquare
  split
  · next h =>
    exact mul_le_mul ha ha h (le_trans h ha)
  · next h =>
    push_neg at h
    split
    · next h' =>
      dsimp only
      nlinarith [mul_nonneg (show (0:ℚ) ≤ a.hi - a.lo from sub_nonneg.2 ha)
        (show (0:ℚ) ≤ -(a.lo + a.hi) by linarith)]
    · next h' =>
      push_neg at h'
      exact le_max_of_le_left (mul_self_nonneg a.lo)

theorem memQ_iAbs {x : ℚ} {a : GInterval} (hx : memQ x a) : memQ |x| (iAbs a) := by
  obtain ⟨h1, h2⟩ := hx
  unfold iAbs
  split
  · next h => rw [abs_of_nonneg (le_trans h h1)]; exact ⟨h1, h2⟩
  · next h =>
    push_neg at h
    split
    · next h' =>
      rw [abs_of_nonpos (le_trans h2 h')]
      exact ⟨neg_le_neg h2, neg_le_neg h1⟩
    · next h' =>
      push_neg at h'
      refine ⟨abs_nonneg x, ?_⟩
      rcases le_total 0 x with hx0 | hx0
      · rw [abs_of_nonneg hx0]; exact le_max_of_le_right h2
      · rw [abs_of_nonpos hx0]; exact le_max_of_le_left (neg_le_neg h1)

theorem wf_iAbs {a : GInterval} (ha : wf a) : wf (iAbs a) := by
  unfold wf iAbs
  split
  · exact ha
  · next h =>
    push_neg at h
    split
    · next h' => simpa using ha
    · next h' =>
      push_neg at h'
      exact le_max_of_le_right (le_of_lt h')

theorem memQ_iMinC {x y : ℚ} {a b : GInterval} (hx : memQ x a) (hy : memQ y b) :
    memQ (min x y) (iMinC a b).1 := by
  obtain ⟨hx1, hx2⟩ := hx
  obtain ⟨hy1, hy2⟩ := hy
  unfold iMinC
  split
  · next h => rw [min_eq_left (by linarith)]; exact ⟨hx1, hx2⟩
  · next h =>
    split
    · next h' => rw [min_eq_right (by linarith)]; exact ⟨hy1, hy2⟩
    · exact ⟨min_le_min hx1 hy1, min_le_min hx2 hy2⟩


theorem iMinC_choice1 {x y : ℚ} {a b : GInterval} (hx : memQ x a) (hy : memQ y b)
    (hc : (iMinC a b).2 = 1) : x ≤ y := by
  unfold iMinC at hc
  split at hc
  · next h => linarith [hx.2, hy.1]
  · split at hc <;> simp_all

theorem iMinC_choice2 {x y : ℚ} {a b : GInterval} (hx : memQ x a) (hy : memQ y b)
    (hc : (iMinC a b).2 = 2) : y ≤ x := by
  unfold iMinC at hc
  split at hc
  · simp_all
  · split at hc
    · next h => linarith [hy.2, hx.1]
    · simp_all

theorem iMinC_choice_le2 (a b : GInterval) : (iMinC a b).2 ≤ 2 := by
  unfold iMinC
  split
  · exact one_le_two
  · split <;> simp

theorem wf_iMinC {a b : GInterval} (ha : wf a) (hb : wf b) : wf (iMinC a b).1 := by
  unfold iMinC
  split
  · exact ha
  · split
    · exact hb
    · exact min_le_min ha hb

theorem memQ_iMaxC {x y : ℚ} {a b : GInterval} (hx : memQ x a) (hy : memQ y b) :
    memQ (max x y) (iMaxC a b).1 := by
  obtain ⟨hx1, hx2⟩ := hx
  obtain ⟨hy1, hy2⟩ := hy
  unfold iMaxC
  split
  · next h => rw [max_eq_left (by linarith)]; exact ⟨hx1, hx2⟩
  · next h =>
    split
    · next h' => rw [max_eq_right (by linarith)]; exact ⟨hy1, hy2⟩
    · exact ⟨max_le_max hx1 hy1, max_le_max hx2 hy2⟩

theorem iMaxC_choice1 {x y : ℚ} {a b : GInterval} (hx : memQ x a) (hy : memQ y b)
    (hc : (iMaxC a b).2 = 1) : y ≤ x := by
  unfold iMaxC at hc
  split at hc
  · next h => linarith [hx.1, hy.2]
  · split at hc <;> simp_all

theorem iMaxC_choice2 {x y : ℚ} {a b : GInterval} (hx : memQ x a) (hy : memQ y b)
    (hc : (iMaxC a b).2 = 2) : x ≤ y := by
  unfold iMaxC at hc
  split at hc
  · simp_all
  · split at hc
    · next h => linarith [hy.1, hx.2]
    · simp_all

theorem iMaxC_choice_le2 (a b : GInterval) : (iMaxC a b).2 ≤ 2 := by
  unfold iMaxC
  split
  · exact one_le_two
  · split <;> simp

theorem wf_iMaxC {a b : GInterval} (ha : wf a) (hb : wf b) : wf (iMaxC a b).1 := by
  unfold iMaxC
  split
  · exact ha
  · split
    · exact hb
    · exact max_le_max ha hb

end GInterval

/-! ## Banked clause encoding (`src/lib/renderable.hpp`, `src/src/renderable.cu`)

A banked `Clause` is `{opcode, banks, out, lhs, rhs}`; `banks` bit 0 (resp. 1)
says the LHS (resp. RHS) operand is an index into the constant table rather
than a register.  The opcode set is the libfive subset actually dispatched by
`intervalOp`/`derivOp`/`PixelRenderer::draw` ("Skipping transcendental
functions for now" in the source); `OP_SQRT` and `OP_DIV` are dispatched in
the source but their kernels live in the absent `gpu_interval.hpp` and are
not rational, so they are outside the embedded fragment.  `VAR_X/Y/Z` appear
because the prototype compiler `Tape::build` emits clauses for them. -/

/-- Banked opcodes (libfive `Opcode` subset). -/
inductive BOp where
  | varX | varY | varZ
  | square | neg
  | add | mul | min | max | sub
  deriving DecidableEq, Repr

/-- `c.opcode >= OP_ADD` in the libfive enumeration selects the binary
operators; used when marking RHS operands active. -/
def BOp.isBinary : BOp → Bool
  | .add | .mul | .min | .max | .sub => true
  | _ => false

/-- The opcodes `intervalOp` dispatches on (everything but the axis
terminals, which reach the `default` branch of its switch). -/
def BOp.handled : BOp → Bool
  | .varX | .varY | .varZ => false
  | _ => true

/-- A banked register-machine clause (`Clause` in `clause.hpp`, layout as
used throughout `renderable.cu`). -/
structure BClause where
  opcode : BOp
  banks : ℕ
  out : ℕ
  lhs : ℕ
  rhs : ℕ
  deriving DecidableEq, Repr

/-- Pointwise update of an array modelled as a total function. -/
def upd {α : Type} (f : ℕ → α) (i : ℕ) (v : α) : ℕ → α :=
  fun j => if j = i then v else f j

theorem upd_same {α : Type} (f : ℕ → α) (i : ℕ) (v : α) : upd f i v i = v := by
  simp [upd]

theorem upd_other {α : Type} (f : ℕ → α) {i j : ℕ} (v : α) (h : j ≠ i) :
    upd f i v j = f j := by
  simp [upd, h]

/-- `intervalOp` (`src/src/renderable.cu` lines 32-69): interval dispatch with
the MIN/MAX choice code as an extra result (the `uint8_t& choice` out
parameter, initialized to 0 by every caller). -/
def intervalOp (op : BOp) (lhs rhs : GInterval) : GInterval × ℕ :=
  match op with
  | .square => (GInterval.iSquare lhs, 0)
  | .neg => (GInterval.iNeg lhs, 0)
  | .add => (GInterval.iAdd lhs rhs, 0)
  | .mul => (GInterval.iMul lhs rhs, 0)
  | .min => GInterval.iMinC lhs rhs
  | .max => GInterval.iMaxC lhs rhs
  | .sub => (GInterval.iSub lhs rhs, 0)
  | _ => (⟨0, 0⟩, 0)    -- `default: break;` → `return {0.0f, 0.0f};`

/-- Resolve the LHS operand of a banked clause as an interval (the
`switch (c.banks)` dispatch in `TileRenderer::check`; a constant is the
degenerate interval, matching `upper(float) = lower(float) = float`). -/
def bankLhsI (consts : ℕ → ℚ) (regs : ℕ → GInterval) (c : BClause) : GInterval :=
  if c.banks % 2 = 1 then GInterval.ofQ (consts c.lhs) else regs c.lhs

/-- Resolve the RHS operand of a banked clause as an interval. -/
def bankRhsI (consts : ℕ → ℚ) (regs : ℕ → GInterval) (c : BClause) : GInterval :=
  if c.banks / 2 % 2 = 1 then GInterval.ofQ (consts c.rhs) else regs c.rhs

/-- One iteration of the interval loop of `TileRenderer::check`
(`src/src/renderable.cu` lines 121-160): dispatch on banks, run
`intervalOp`, record a 2-bit choice for MIN/MAX, store the result. -/
def bTileStep (consts : ℕ → ℚ) (st : (ℕ → GInterval) × List ℕ) (c : BClause) :
    (ℕ → GInterval) × List ℕ :=
  let oc := intervalOp c.opcode (bankLhsI consts st.1 c) (bankRhsI consts st.1 c)
  (upd st.1 c.out oc.1,
   if c.opcode = .min ∨ c.opcode = .max then st.2 ++ [oc.2] else st.2)

/-- The interval pass of `TileRenderer::check`: fold over the tape, returning
the final registers and the recorded choice sequence. -/
def bTileEvalI (consts : ℕ → ℚ) (clauses : List BClause)
    (regs0 : ℕ → GInterval) : (ℕ → GInterval) × List ℕ :=
  clauses.foldl (bTileStep consts) (regs0, [])

/-- Default clause (only used to give `List.getLastD` a base). -/
def dfltBClause : BClause := ⟨.varX, 0, 0, 0, 0⟩

/-- The root interval of `TileRenderer::check`
(line 162-163: `regs[clause_ptr[num_clauses - 1].out]`). -/
def bTileRoot (consts : ℕ → ℚ) (clauses : List BClause)
    (regs0 : ℕ → GInterval) : GInterval :=
  (bTileEvalI consts clauses regs0).1 (clauses.getLastD dfltBClause).out

/-- Tile classification results (`TileResult` in `check.hpp`). -/
inductive TileResult where
  | TILE_FILLED | TILE_AMBIGUOUS | TILE_EMPTY
  deriving DecidableEq, Repr

/-- The classification logic of `TileRenderer::check`
(`src/src/renderable.cu` lines 165-175 and fallthrough to line 272):
`upper < 0 → FILLED`, else `lower > 0 → EMPTY`, else `AMBIGUOUS`. -/
def tileCheckClassify (consts : ℕ → ℚ) (clauses : List BClause)
    (regs0 : ℕ → GInterval) : TileResult :=
  if (bTileRoot consts clauses regs0).hi < 0 then .TILE_FILLED
  else if (bTileRoot consts clauses regs0).lo > 0 then .TILE_EMPTY
  else .TILE_AMBIGUOUS

/-- Pointwise opcode dispatch of `PixelRenderer::draw`
(`src/src/renderable.cu` lines 670-685).  The `default: break` branch leaves
the output register uninitialized; it is modelled as 0 (no claim evaluates an
unhandled opcode pointwise). -/
def floatOp (op : BOp) (lhs rhs : ℚ) : ℚ :=
  match op with
  | .square => lhs * lhs
  | .neg => -lhs
  | .add => lhs + rhs
  | .mul => lhs * rhs
  | .min => min lhs rhs
  | .max => max lhs rhs
  | .sub => lhs - rhs
  | _ => 0

/-- One iteration of the pointwise loop of `PixelRenderer::draw`
(lines 651-686). -/
def bFloatStep (consts : ℕ → ℚ) (regs : ℕ → ℚ) (c : BClause) : ℕ → ℚ :=
  let lhs := if c.banks % 2 = 1 then consts c.lhs else regs c.lhs
  let rhs := if c.banks / 2 % 2 = 1 then consts c.rhs else regs c.rhs
  upd regs c.out (floatOp c.opcode lhs rhs)

/-- Pointwise evaluation of a banked clause list (`PixelRenderer::draw`'s
interpreter loop, flattened over the subtape chunk chain). -/
def bFloatEval (consts : ℕ → ℚ) (clauses : List BClause) (regs0 : ℕ → ℚ) :
    ℕ → ℚ :=
  clauses.foldl (bFloatStep consts) regs0


/-! ## Soundness of the banked interval pass w.r.t. pointwise evaluation -/

theorem bTileStep_fst (consts : ℕ → ℚ) (ρ : ℕ → GInterval) (chs : List ℕ)
    (c : BClause) :
    (bTileStep consts (ρ, chs) c).1
      = upd ρ c.out
          (intervalOp c.opcode (bankLhsI consts ρ c) (bankRhsI consts ρ c)).1 :=
  rfl

theorem bFloatStep_eq (consts : ℕ → ℚ) (σ : ℕ → ℚ) (c : BClause) :
    bFloatStep consts σ c
      = upd σ c.out
          (floatOp c.opcode
            (if c.banks % 2 = 1 then consts c.lhs else σ c.lhs)
            (if c.banks / 2 % 2 = 1 then consts c.rhs else σ c.rhs)) :=
  rfl

/-- The pointwise register file lies inside the interval register file. -/
def SRel (σ : ℕ → ℚ) (ρ : ℕ → GInterval) : Prop :=
  ∀ s, GInterval.memQ (σ s) (ρ s)

/-- Every interval register is well-formed. -/
def WfAll (ρ : ℕ → GInterval) : Prop := ∀ s, (ρ s).wf

theorem bTileStep_wf (consts : ℕ → ℚ) (c : BClause) {ρ : ℕ → GInterval}
    {chs : List ℕ} (h : WfAll ρ) : WfAll (bTileStep consts (ρ, chs) c).1 := by
  intro s
  rw [bTileStep_fst]
  by_cases hs : s = c.out
  · subst hs
    rw [upd_same]
    have hl : (bankLhsI consts ρ c).wf := by
      unfold bankLhsI; split
      · exact GInterval.wf_ofQ _
      · exact h _
    have hr : (bankRhsI consts ρ c).wf := by
      unfold bankRhsI; split
      · exact GInterval.wf_ofQ _
      · exact h _
    cases hop : c.opcode <;> simp only [intervalOp, hop]
    · exact le_refl (0 : ℚ)
    · exact le_refl (0 : ℚ)
    · exact le_refl (0 : ℚ)
    · exact GInterval.wf_iSquare hl
    · exact GInterval.wf_iNeg hl
    · exact GInterval.wf_iAdd hl hr
    · exact GInterval.wf_iMul
    · exact GInterval.wf_iMinC hl hr
    · exact GInterval.wf_iMaxC hl hr
    · exact GInterval.wf_iSub hl hr
  · rw [upd_other _ _ hs]
    exact h s

theorem bTileStep_sound (consts : ℕ → ℚ) (c : BClause)
    (hc : c.opcode.handled = true) {σ : ℕ → ℚ} {ρ : ℕ → GInterval}
    {chs : List ℕ} (h : SRel σ ρ) :
    SRel (bFloatStep consts σ c) (bTileStep consts (ρ, chs) c).1 := by
  intro s
  rw [bTileStep_fst, bFloatStep_eq]
  by_cases hs : s = c.out
  · subst hs
    rw [upd_same, upd_same]
    have hl : GInterval.memQ (if c.banks % 2 = 1 then consts c.lhs else σ c.lhs)
        (bankLhsI consts ρ c) := by
      unfold bankLhsI
      split
      · exact GInterval.memQ_ofQ _
      · exact h _
    have hr : GInterval.memQ (if c.banks / 2 % 2 = 1 then consts c.rhs else σ c.rhs)
        (bankRhsI consts ρ c) := by
      unfold bankRhsI
      split
      · exact GInterval.memQ_ofQ _
      · exact h _
    cases hop : c.opcode <;> simp only [BOp.handled, hop] at hc <;>
      simp only [floatOp, intervalOp, hop]
    · exact Bool.noConfusion hc
    · exact Bool.noConfusion hc
    · exact Bool.noConfusion hc
    · exact GInterval.memQ_iSquare hl
    · exact GInterval.memQ_iNeg hl
    · exact GInterval.memQ_iAdd hl hr
    · exact GInterval.memQ_iMul hl hr
    · exact GInterval.memQ_iMinC hl hr
    · exact GInterval.memQ_iMaxC hl hr
    · exact GInterval.memQ_iSub hl hr
  · rw [upd_other _ _ hs, upd_other _ _ hs]
    exact h s

theorem bTileEvalI_wf (consts : ℕ → ℚ) (clauses : List BClause)
    {ρ : ℕ → GInterval} (h : WfAll ρ) {chs : List ℕ} :
    WfAll (clauses.foldl (bTileStep consts) (ρ, chs)).1 := by
  induction clauses generalizing ρ chs with
  | nil => exact h
  | cons c cs ih =>
    rw [List.foldl_cons]
    have hstep := @bTileStep_wf consts c ρ chs h
    rcases heq : bTileStep consts (ρ, chs) c with ⟨ρ', chs2⟩
    rw [heq] at hstep
    exact ih hstep

theorem bTileEvalI_sound (consts : ℕ → ℚ) (clauses : List BClause)
    (hcl : ∀ c ∈ clauses, c.opcode.handled = true)
    {σ : ℕ → ℚ} {ρ : ℕ → GInterval} (h : SRel σ ρ) {chs : List ℕ} :
    SRel (clauses.foldl (bFloatStep consts) σ)
      (clauses.foldl (bTileStep consts) (ρ, chs)).1 := by
  induction clauses generalizing σ ρ chs with
  | nil => exact h
  | cons c cs ih =>
    rw [List.foldl_cons, List.foldl_cons]
    have hstep := @bTileStep_sound consts c (hcl c (List.mem_cons_self c cs))
      σ ρ chs h
    rcases heq : bTileStep consts (ρ, chs) c with ⟨ρ', chs2⟩
    rw [heq] at hstep
    exact ih (fun c' hc' => hcl c' (List.mem_cons_of_mem c hc')) hstep

/-- **C1.** For every tile evaluated by the interval tile evaluator
(`TileRenderer::check`), the tile is classified `TILE_FILLED` exactly when
the root interval's upper bound is `< 0`, `TILE_EMPTY` exactly when its lower
bound is `> 0`, `TILE_AMBIGUOUS` otherwise; and when it is `TILE_FILLED` the
tape's pointwise value is non-positive at every point of the tile (i.e. for
every pointwise register file lying inside the tile's interval register
file), while for `TILE_EMPTY` it is positive at every such point. -/
theorem tile_classification_sound (consts : ℕ → ℚ) (clauses : List BClause)
    (regs0I : ℕ → GInterval) (regs0F : ℕ → ℚ)
    (hwf : WfAll regs0I) (hmem : SRel regs0F regs0I)
    (hcl : ∀ c ∈ clauses, c.opcode.handled = true) :
    (tileCheckClassify consts clauses regs0I = .TILE_FILLED ↔
      (bTileRoot consts clauses regs0I).hi < 0) ∧
    (tileCheckClassify consts clauses regs0I = .TILE_EMPTY ↔
      (bTileRoot consts clauses regs0I).lo > 0) ∧
    (tileCheckClassify consts clauses regs0I = .TILE_AMBIGUOUS ↔
      (¬ (bTileRoot consts clauses regs0I).hi < 0 ∧
       ¬ (bTileRoot consts clauses regs0I).lo > 0)) ∧
    (tileCheckClassify consts clauses regs0I = .TILE_FILLED →
      bFloatEval consts clauses regs0F (clauses.getLastD dfltBClause).out ≤ 0) ∧
    (tileCheckClassify consts clauses regs0I = .TILE_EMPTY →
      0 < bFloatEval consts clauses regs0F (clauses.getLastD dfltBClause).out) := by
  have hwfres : (bTileRoot consts clauses regs0I).wf :=
    bTileEvalI_wf consts clauses hwf _
  have hsound : GInterval.memQ
      (bFloatEval consts clauses regs0F (clauses.getLastD dfltBClause).out)
      (bTileRoot consts clauses regs0I) :=
    bTileEvalI_sound consts clauses hcl hmem _
  unfold tileCheckClassify
  refine ⟨?_, ?_, ?_, ?_, ?_⟩
  · constructor
    · intro h
      by_contra hn
      rw [if_neg hn] at h
      split at h <;> cases h
    · intro h; rw [if_pos h]
  · constructor
    · intro h
      split at h
      · cases h
      · split at h
        · assumption
        · cases h
    · intro h
      have hn : ¬ (bTileRoot consts clauses regs0I).hi < 0 := by
        unfold GInterval.wf at hwfres
        intro hcon; linarith
      rw [if_neg hn, if_pos h]
  · constructor
    · intro h
      split at h
      · cases h
      · split at h
        · cases h
        · constructor <;> assumption
    · rintro ⟨h1, h2⟩
      rw [if_neg h1, if_neg h2]
  · intro h
    have hh : (bTileRoot consts clauses regs0I).hi < 0 := by
      by_contra hn
      rw [if_neg hn] at h
      split at h <;> cases h
    have := hsound.2
    linarith
  · intro h
    have hh : (bTileRoot consts clauses regs0I).lo > 0 := by
      split at h
      · cases h
      · split at h
        · assumption
        · cases h
    have := hsound.1
    linarith

/-- Witness for C1 at a concrete tile: the one-clause tape `NEG r0 → r1` over
the register intervals `[1, 2]` classifies `TILE_FILLED`, and the pointwise
value at the sample point `3/2` inside that interval is non-positive. -/
theorem tile_classification_sound_witness :
    tileCheckClassify (fun _ => 0) [⟨.neg, 0, 1, 0, 0⟩] (fun _ => ⟨1, 2⟩)
        = .TILE_FILLED ∧
    bFloatEval (fun _ => 0) [⟨.neg, 0, 1, 0, 0⟩] (fun _ => 3/2) 1 ≤ 0 := by
  have h := tile_classification_sound (fun _ => 0) [⟨.neg, 0, 1, 0, 0⟩]
    (fun _ => ⟨1, 2⟩) (fun _ => 3/2)
    (fun _ => by norm_num [GInterval.wf])
    (fun _ => ⟨by norm_num, by norm_num⟩)
    (by decide)
  exact ⟨by decide, h.2.2.2.1 (by decide)⟩

/-- **C3.** For every pair of well-formed input intervals, the interval MIN
operation returns choice code 1 exactly when `upper(lhs) < lower(rhs)` and
choice code 2 exactly when `upper(rhs) < lower(lhs)`; the interval MAX
operation returns choice code 1 exactly when `lower(lhs) > upper(rhs)` and
choice code 2 exactly when `lower(rhs) > upper(lhs)`; both return choice
code 0 otherwise; and in the unambiguous cases the returned interval equals
the chosen operand. -/
theorem intervalOp_minmax_choice (a b : GInterval) (ha : a.wf) (hb : b.wf) :
    ((intervalOp .min a b).2 = 1 ↔ a.hi < b.lo) ∧
    ((intervalOp .min a b).2 = 2 ↔ b.hi < a.lo) ∧
    ((intervalOp .max a b).2 = 1 ↔ a.lo > b.hi) ∧
    ((intervalOp .max a b).2 = 2 ↔ b.lo > a.hi) ∧
    (¬ a.hi < b.lo → ¬ b.hi < a.lo → (intervalOp .min a b).2 = 0) ∧
    (¬ a.lo > b.hi → ¬ b.lo > a.hi → (intervalOp .max a b).2 = 0) ∧
    ((intervalOp .min a b).2 = 1 → (intervalOp .min a b).1 = a) ∧
    ((intervalOp .min a b).2 = 2 → (intervalOp .min a b).1 = b) ∧
    ((intervalOp .max a b).2 = 1 → (intervalOp .max a b).1 = a) ∧
    ((intervalOp .max a b).2 = 2 → (intervalOp .max a b).1 = b) := by
  unfold GInterval.wf at ha hb
  simp only [intervalOp, GInterval.iMinC, GInterval.iMaxC]
  by_cases h1 : a.hi < b.lo
  · have h2 : ¬ b.hi < a.lo := by linarith
    rw [if_pos h1]
    by_cases h3 : a.lo > b.hi
    · have h4 : ¬ b.lo > a.hi := by linarith
      rw [if_pos h3]
      refine ⟨by simp [h1], by simp [h2], by simp [h3], by simp [h4],
        ?_, ?_, ?_, ?_, ?_, ?_⟩ <;> simp_all
    · rw [if_neg h3]
      by_cases h4 : b.lo > a.hi
      · rw [if_pos h4]
        refine ⟨by simp [h1], by simp [h2], ?_, by simp [h4],
          ?_, ?_, ?_, ?_, ?_, ?_⟩ <;> simp_all
      · rw [if_neg h4]
        refine ⟨by simp [h1], by simp [h2], ?_, ?_, ?_, ?_, ?_, ?_, ?_, ?_⟩ <;>
          simp_all
  · rw [if_neg h1]
    by_cases h2 : b.hi < a.lo
    · have h3 : a.lo > b.hi := h2
      have h4 : ¬ b.lo > a.hi := by linarith
      rw [if_pos h2, if_pos h3]
      refine ⟨?_, by simp [h2], by simp [h3], ?_, ?_, ?_, ?_, ?_, ?_, ?_⟩ <;>
        simp_all
    · rw [if_neg h2]
      by_cases h3 : a.lo > b.hi
      · have h4 : ¬ b.lo > a.hi := by linarith
        rw [if_pos h3, ]
        refine ⟨?_, ?_, by simp [h3], by simp [h4], ?_, ?_, ?_, ?_, ?_, ?_⟩ <;>
          simp_all
      · rw [if_neg h3]
        by_cases h4 : b.lo > a.hi
        · rw [if_pos h4]
          refine ⟨?_, ?_, ?_, by simp [h4], ?_, ?_, ?_, ?_, ?_, ?_⟩ <;> simp_all
        · rw [if_neg h4]
          refine ⟨?_, ?_, ?_, ?_, ?_, ?_, ?_, ?_, ?_, ?_⟩ <;> simp_all

/-- Witness for C3 at concrete intervals `[0, 1]` and `[2, 3]`: MIN chooses
the LHS (choice 1) and returns it. -/
theorem intervalOp_minmax_choice_witness :
    (intervalOp .min ⟨0, 1⟩ ⟨2, 3⟩).2 = 1 ∧
    (intervalOp .min ⟨0, 1⟩ ⟨2, 3⟩).1 = ⟨0, 1⟩ := by
  have h := intervalOp_minmax_choice ⟨0, 1⟩ ⟨2, 3⟩ (by norm_num [GInterval.wf])
    (by norm_num [GInterval.wf])
  refine ⟨h.1.2 (by norm_num), h.2.2.2.2.2.2.1 (h.1.2 (by norm_num))⟩

/-! ## Banked tape specialization (`TileRenderer::check` lines 202-270 and
`SubtileRenderer::check` lines 402-512 of `src/src/renderable.cu`)

Both walk the parent tape backwards from the root, carrying an `active` bit
per register and consuming the recorded choice codes in reverse order; active
clauses are emitted (written backwards) into freshly claimed subtape chunks.
The chunk chain plumbing (claim / `start` / `next` / `prev`) only affects
where the clauses are stored; the emitted chain is modelled by the flattened
clause list, in evaluation order.  The backward walk is modelled by
structural recursion that processes the suffix (the clauses after the current
one) first, which performs the per-clause effects in exactly the source's
order. -/

/-- `c.opcode == OP_MIN || c.opcode == OP_MAX`. -/
def BOp.isMM : BOp → Bool
  | .min | .max => true
  | _ => false

/-- `active[s] |= b`. -/
def actOr (A : ℕ → Bool) (s : ℕ) (b : Bool) : ℕ → Bool :=
  upd A s (A s || b)

/-- The backward specialization walk of `TileRenderer::check`
(`src/src/renderable.cu` lines 203-265).  Input: the parent clause list (in
evaluation order), the active set at the root, and the recorded choice list
(in recording order; backward consumption matches suffix-first recursion).
Returns the emitted clause list (in evaluation order), the active set at the
start of the tape, and the `terminal` flag (initialized `true` at line 202,
cleared only by an ambiguous MIN/MAX at line 241). -/
def trSpecGo : List BClause → (ℕ → Bool) → List ℕ → List BClause × (ℕ → Bool) × Bool
  | [], A, _ => ([], A, true)
  | c :: cs, A, chs =>
    let cho := if c.opcode.isMM then chs.headD 0 else 0
    let r := trSpecGo cs A (if c.opcode.isMM then chs.tail else chs)
    let em := r.1
    let A' := r.2.1
    let term := r.2.2
    if A' c.out then
      let A1 := upd A' c.out false
      if c.opcode.isMM then
        if cho = 1 then
          if c.banks % 2 == 0 then
            let A2 := upd A1 c.lhs true
            if c.lhs = c.out then (em, A2, term)
            else ({c with rhs := c.lhs, banks := 0} :: em, A2, term)
          else ({c with rhs := c.lhs, banks := 3} :: em, A1, term)
        else if cho = 2 then
          if c.banks / 2 % 2 == 0 then
            let A2 := upd A1 c.rhs true
            if c.rhs = c.out then (em, A2, term)
            else ({c with lhs := c.rhs, banks := 0} :: em, A2, term)
          else ({c with lhs := c.rhs, banks := 3} :: em, A1, term)
        else if cho = 0 then
          -- ambiguous: keep the clause, activate both register operands,
          -- and clear the terminal flag
          (c :: em,
           actOr (actOr A1 c.lhs (c.banks % 2 == 0)) c.rhs (c.banks / 2 % 2 == 0),
           false)
        else
          -- `assert(false)`: unreachable for recorded choices; the release
          -- fallthrough deactivates the output and emits the clause unchanged
          (c :: em, A1, term)
      else
        (c :: em,
         actOr (actOr A1 c.lhs (c.banks % 2 == 0)) c.rhs
           (c.opcode.isBinary && c.banks / 2 % 2 == 0),
         term)
    else (em, A', term)

/-- The backward specialization walk of `SubtileRenderer::check`
(`src/src/renderable.cu` lines 427-506).  Identical clause handling to
`trSpecGo` except for the `terminal` flag: here the ambiguous MIN/MAX branch
(line 479) does NOT clear `terminal`, while the branch for every other active
clause (line 486) DOES clear it. -/
def srSpecGo : List BClause → (ℕ → Bool) → List ℕ → List BClause × (ℕ → Bool) × Bool
  | [], A, _ => ([], A, true)
  | c :: cs, A, chs =>
    let cho := if c.opcode.isMM then chs.headD 0 else 0
    let r := srSpecGo cs A (if c.opcode.isMM then chs.tail else chs)
    let em := r.1
    let A' := r.2.1
    let term := r.2.2
    if A' c.out then
      let A1 := upd A' c.out false
      if c.opcode.isMM then
        if cho = 1 then
          if c.banks % 2 == 0 then
            let A2 := upd A1 c.lhs true
            if c.lhs = c.out then (em, A2, term)
            else ({c with rhs := c.lhs, banks := 0} :: em, A2, term)
          else ({c with rhs := c.lhs, banks := 3} :: em, A1, term)
        else if cho = 2 then
          if c.banks / 2 % 2 == 0 then
            let A2 := upd A1 c.rhs true
            if c.rhs = c.out then (em, A2, term)
            else ({c with lhs := c.rhs, banks := 0} :: em, A2, term)
          else ({c with lhs := c.rhs, banks := 3} :: em, A1, term)
        else if cho = 0 then
          (c :: em,
           actOr (actOr A1 c.lhs (c.banks % 2 == 0)) c.rhs (c.banks / 2 % 2 == 0),
           term)
        else
          (c :: em, A1, term)
      else
        (c :: em,
         actOr (actOr A1 c.lhs (c.banks % 2 == 0)) c.rhs
           (c.opcode.isBinary && c.banks / 2 % 2 == 0),
         false)
    else (em, A', term)

/-- The root-only initial active set (`active[tape[num_clauses-1].out] =
true` at line 187 resp. `active[in_tape[in_s-1].out] = true` at line 415). -/
def rootActive (clauses : List BClause) : ℕ → Bool :=
  upd (fun _ => false) (clauses.getLastD dfltBClause).out true

/-- `TileRenderer::check` tape building: specialized clause list and terminal
flag as recorded by `tiles.setHead(tile, subtape_index, terminal)`. -/
def tileRendererSpecialize (clauses : List BClause) (chs : List ℕ) :
    List BClause × Bool :=
  let r := trSpecGo clauses (rootActive clauses) chs
  (r.1, r.2.2)

/-- `SubtileRenderer::check` tape building: specialized clause list and
terminal flag as recorded by `subtiles.setHead(subtile, out_subtape_index,
terminal)`. -/
def subtileRendererSpecialize (clauses : List BClause) (chs : List ℕ) :
    List BClause × Bool :=
  let r := srSpecGo clauses (rootActive clauses) chs
  (r.1, r.2.2)

/-- **C4 (failing-input evaluation).** On the one-clause parent subtape
`MIN r0 r1 → r2` with the recorded choice ambiguous (code 0),
`SubtileRenderer::check` keeps the subtile's `terminal` flag set even though
the emitted subtape contains that MIN clause — while `TileRenderer::check`
on the same input clears `terminal`, as the claim requires.  The
`SubtileRenderer::check` loop has the update inverted: it clears `terminal`
for every active non-MIN/MAX clause (renderable.cu line 486) and leaves it
set on an ambiguous MIN/MAX (line 479), contradicting the claim, the
sibling `TileRenderer::check` (line 241), and the code's own comment
("terminal (i.e. having no min/max clauses to specialize)", lines 394-395). -/
theorem subtile_terminal_flag_inverted :
    subtileRendererSpecialize [⟨.min, 0, 2, 0, 1⟩] [0]
        = ([⟨.min, 0, 2, 0, 1⟩], true) ∧
    tileRendererSpecialize [⟨.min, 0, 2, 0, 1⟩] [0]
        = ([⟨.min, 0, 2, 0, 1⟩], false) := by
  exact ⟨by decide, by decide⟩

/-! ## Axis binding (`storeAxes`, `PixelRenderer::draw`) -/

/-- A render view (`view.hpp` is absent; modelled from the spec:
"Scale (float), center (vec3)"). -/
structure View where
  scale : ℚ
  center : Fin 3 → ℚ

/-- `UINT16_MAX`, the "axis unused" sentinel in `tape.axes.reg`. -/
def AXIS_UNUSED : ℕ := 65535

/-- Modelled from the spec (`gpu_interval.hpp` absent): interval scaled by a
float, sign-aware. -/
def GInterval.iScale (a : GInterval) (s : ℚ) : GInterval :=
  if 0 ≤ s then ⟨a.lo * s, a.hi * s⟩ else ⟨a.hi * s, a.lo * s⟩

/-- Modelled from the spec (`gpu_interval.hpp` absent): interval minus a
float. -/
def GInterval.iSubQ (a : GInterval) (c : ℚ) : GInterval := ⟨a.lo - c, a.hi - c⟩

/-- `storeAxes` (`src/src/renderable.cu` lines 7-30): prepopulate the
interval registers bound to the used axes from the tile's lower/upper corner
positions.  In 2D (`D ≠ 3`) the Z register is bound to the constant interval
`{v.center[2], v.center[2]}`. -/
def storeAxes (D : ℕ) (axes : Fin 3 → ℕ) (v : View) (lower upper : Fin 3 → ℚ)
    (regs : ℕ → GInterval) : ℕ → GInterval :=
  let r0 := if axes 0 ≠ AXIS_UNUSED then
      upd regs (axes 0) (((⟨lower 0, upper 0⟩ : GInterval).iScale v.scale).iSubQ
        (v.center 0))
    else regs
  let r1 := if axes 1 ≠ AXIS_UNUSED then
      upd r0 (axes 1) (((⟨lower 1, upper 1⟩ : GInterval).iScale v.scale).iSubQ
        (v.center 1))
    else r0
  if axes 2 ≠ AXIS_UNUSED then
    upd r1 (axes 2)
      (if D = 3 then
        ((⟨lower 2, upper 2⟩ : GInterval).iScale v.scale).iSubQ (v.center 2)
      else GInterval.ofQ (v.center 2))
  else r1

/-- The axis prepopulation of `PixelRenderer::draw` (`src/src/renderable.cu`
lines 609-623): pointwise registers from the voxel position `f`.  In 2D
(`D ≠ 3`) the Z register is bound to the constant `v.center[2]`. -/
def pixelRegsInit (D : ℕ) (axes : Fin 3 → ℕ) (v : View) (f : Fin 3 → ℚ)
    (regs : ℕ → ℚ) : ℕ → ℚ :=
  let r0 := if axes 0 ≠ AXIS_UNUSED then
      upd regs (axes 0) (f 0 * v.scale - v.center 0)
    else regs
  let r1 := if axes 1 ≠ AXIS_UNUSED then
      upd r0 (axes 1) (f 1 * v.scale - v.center 1)
    else r0
  if axes 2 ≠ AXIS_UNUSED then
    upd r1 (axes 2) (if D = 3 then f 2 * v.scale else v.center 2)
  else r1

/-- **C8.** In 2D renders the Z axis register is bound to the constant
`v.center[2]` in both evaluators that participate in a 2D render (the
interval evaluator via `storeAxes` and the float evaluator via
`PixelRenderer::draw`), so evaluation is independent of the Z coordinate:
for tile corners and voxel positions differing only in their Z component,
the initial register files — and hence the evaluated pixel value, hence the
image — are identical. -/
theorem render2d_z_independent (axes : Fin 3 → ℕ) (v : View)
    (lower upper lower' upper' : Fin 3 → ℚ) (f f' : Fin 3 → ℚ)
    (regsI : ℕ → GInterval) (regsF : ℕ → ℚ)
    (consts : ℕ → ℚ) (clauses : List BClause) (root : ℕ)
    (hl0 : lower 0 = lower' 0) (hu0 : upper 0 = upper' 0)
    (hl1 : lower 1 = lower' 1) (hu1 : upper 1 = upper' 1)
    (hf0 : f 0 = f' 0) (hf1 : f 1 = f' 1) :
    (axes 2 ≠ AXIS_UNUSED →
      storeAxes 2 axes v lower upper regsI (axes 2)
        = GInterval.ofQ (v.center 2) ∧
      pixelRegsInit 2 axes v f regsF (axes 2) = v.center 2) ∧
    storeAxes 2 axes v lower upper regsI
      = storeAxes 2 axes v lower' upper' regsI ∧
    pixelRegsInit 2 axes v f regsF = pixelRegsInit 2 axes v f' regsF ∧
    bFloatEval consts clauses (pixelRegsInit 2 axes v f regsF) root
      = bFloatEval consts clauses (pixelRegsInit 2 axes v f' regsF) root := by
  have h23 : ¬ (2 : ℕ) = 3 := by norm_num
  have hsa : storeAxes 2 axes v lower upper regsI
      = storeAxes 2 axes v lower' upper' regsI := by
    unfold storeAxes
    simp only [if_neg h23]
    rw [hl0, hu0, hl1, hu1]
  have hpx : pixelRegsInit 2 axes v f regsF = pixelRegsInit 2 axes v f' regsF := by
    unfold pixelRegsInit
    simp only [if_neg h23]
    rw [hf0, hf1]
  refine ⟨?_, hsa, hpx, by rw [hpx]⟩
  intro h2
  constructor
  · unfold storeAxes
    simp only [if_pos h2]
    rw [if_neg (by norm_num : ¬ (2 : ℕ) = 3), upd_same]
  · unfold pixelRegsInit
    simp only [if_pos h2]
    rw [if_neg (by norm_num : ¬ (2 : ℕ) = 3), upd_same]

/-- Witness for C8 at concrete data: axes bound to registers 1,2,3, two
voxel/corner tuples differing only in Z. -/
theorem render2d_z_independent_witness :
    storeAxes 2 (fun i => (i : ℕ) + 1) ⟨1, fun _ => 0⟩
        (fun _ => 0) (fun _ => 1) (fun _ => ⟨0, 0⟩)
      = storeAxes 2 (fun i => (i : ℕ) + 1) ⟨1, fun _ => 0⟩
        (fun i => if (i : ℕ) = 2 then 5 else 0)
        (fun i => if (i : ℕ) = 2 then 7 else 1) (fun _ => ⟨0, 0⟩) ∧
    pixelRegsInit 2 (fun i => (i : ℕ) + 1) ⟨1, fun _ => 0⟩ (fun _ => 0)
        (fun _ => 0)
      = pixelRegsInit 2 (fun i => (i : ℕ) + 1) ⟨1, fun _ => 0⟩
        (fun i => if (i : ℕ) = 2 then 9 else 0) (fun _ => 0) := by
  have h := render2d_z_independent (fun i => (i : ℕ) + 1) ⟨1, fun _ => 0⟩
    (fun _ => 0) (fun _ => 1)
    (fun i => if (i : ℕ) = 2 then 5 else 0)
    (fun i => if (i : ℕ) = 2 then 7 else 1)
    (fun _ => 0) (fun i => if (i : ℕ) = 2 then 9 else 0)
    (fun _ => ⟨0, 0⟩) (fun _ => 0) (fun _ => 0) [] 0
    (by norm_num) (by norm_num) (by norm_num) (by norm_num)
    (by norm_num) (by norm_num)
  exact ⟨h.2.1, h.2.2.1⟩

/-! ## Fused (v3) clause encoding (`src/src/v3.cu`)

A v3 clause is one `uint64_t` whose fields are extracted by the `OP`,
`I_OUT`, `I_LHS`, `I_RHS`, `IMM` and `JUMP_TARGET` macros of `clause.hpp`
(absent from the sources).  The word is modelled as a record: `op` is the
opcode byte (opcode 0 marks end-of-tape; the tape's word 0 is the axis
header whose bytes 1-3 — here `out`, `lhs`, `rhs` — carry the axis→slot
bindings), `imm` the 32-bit immediate, and `target` the signed jump offset
(stored in the same bits as `imm` in hardware; a separate field here).
`GPU_OP_SQRT_LHS`, division and the transcendental opcodes are dispatched by
the kernels but implemented in the absent `gpu_interval.hpp`; they are
outside the rational fragment and no claim depends on them. -/

/-- v3 fused opcodes (`gpu_opcode.hpp`); `nop` is opcode 0. -/
inductive VOp where
  | nop | jump
  | squareLhs | negLhs | absLhs
  | addLhsImm | addLhsRhs
  | mulLhsImm | mulLhsRhs
  | minLhsImm | minLhsRhs
  | maxLhsImm | maxLhsRhs
  | subLhsImm | subImmRhs | subLhsRhs
  | copyImm | copyLhs | copyRhs
  deriving DecidableEq, Repr

/-- `op >= GPU_OP_MIN_LHS_IMM && op <= GPU_OP_MAX_LHS_RHS` (v3.cu line
250-251): the opcodes that produce a choice code. -/
def VOp.hasChoice : VOp → Bool
  | .minLhsImm | .minLhsRhs | .maxLhsImm | .maxLhsRhs => true
  | _ => false

/-- Opcodes whose evaluation reads the LHS register. -/
def VOp.readsLhs : VOp → Bool
  | .squareLhs | .negLhs | .absLhs
  | .addLhsImm | .addLhsRhs | .mulLhsImm | .mulLhsRhs
  | .minLhsImm | .minLhsRhs | .maxLhsImm | .maxLhsRhs
  | .subLhsImm | .subLhsRhs | .copyLhs => true
  | _ => false

/-- Opcodes whose evaluation reads the RHS register. -/
def VOp.readsRhs : VOp → Bool
  | .addLhsRhs | .mulLhsRhs | .minLhsRhs | .maxLhsRhs
  | .subImmRhs | .subLhsRhs | .copyRhs => true
  | _ => false

/-- A v3 64-bit tape word. -/
structure VWord where
  op : VOp
  out : ℕ
  lhs : ℕ
  rhs : ℕ
  imm : ℚ
  target : ℤ
  deriving DecidableEq, Repr

/-- The all-zero word. -/
def VWord.zero : VWord := ⟨.nop, 0, 0, 0, 0, 0⟩

/-- Well-formedness of a clause word as established by `build_v3_blob`:
a real operator (not `nop`/`jump`), register operands are nonzero exactly
when the opcode reads them (slot 0 is the "no operand" sentinel consulted by
the specializer's `if (i_lhs)` / `if (i_rhs)` tests), and the RHS field of a
choice opcode that does not read a register RHS is the builder's zero fill. -/
def VWord.wfc (w : VWord) : Prop :=
  w.op ≠ .nop ∧ w.op ≠ .jump ∧
  (w.op.readsLhs = true → w.lhs ≠ 0) ∧
  (w.op.readsRhs = true → w.rhs ≠ 0) ∧
  (w.op.hasChoice = true → w.op.readsRhs = false → w.rhs = 0)

instance (w : VWord) : Decidable w.wfc := by
  unfold VWord.wfc; infer_instance

/-- Register-file effect of one clause of the v3 interval evaluator
(`v3_eval_tiles_i`, v3.cu lines 116-178; the rational fragment). -/
def vStepIRegs (σ : ℕ → GInterval) (w : VWord) : ℕ → GInterval :=
  match w.op with
  | .nop | .jump => σ
  | .squareLhs => upd σ w.out (σ w.lhs).iSquare
  | .negLhs => upd σ w.out (σ w.lhs).iNeg
  | .absLhs => upd σ w.out (σ w.lhs).iAbs
  | .addLhsImm => upd σ w.out ((σ w.lhs).iAdd (.ofQ w.imm))
  | .addLhsRhs => upd σ w.out ((σ w.lhs).iAdd (σ w.rhs))
  | .mulLhsImm => upd σ w.out ((σ w.lhs).iMul (.ofQ w.imm))
  | .mulLhsRhs => upd σ w.out ((σ w.lhs).iMul (σ w.rhs))
  | .minLhsImm => upd σ w.out ((σ w.lhs).iMinC (.ofQ w.imm)).1
  | .minLhsRhs => upd σ w.out ((σ w.lhs).iMinC (σ w.rhs)).1
  | .maxLhsImm => upd σ w.out ((σ w.lhs).iMaxC (.ofQ w.imm)).1
  | .maxLhsRhs => upd σ w.out ((σ w.lhs).iMaxC (σ w.rhs)).1
  | .subLhsImm => upd σ w.out ((σ w.lhs).iSub (.ofQ w.imm))
  | .subImmRhs => upd σ w.out ((GInterval.ofQ w.imm).iSub (σ w.rhs))
  | .subLhsRhs => upd σ w.out ((σ w.lhs).iSub (σ w.rhs))
  | .copyImm => upd σ w.out (.ofQ w.imm)
  | .copyLhs => upd σ w.out (σ w.lhs)
  | .copyRhs => upd σ w.out (σ w.rhs)

/-- The choice code recorded by the `CHOICE` macro for one clause (0 for
non-choice opcodes). -/
def vChoiceOf (σ : ℕ → GInterval) (w : VWord) : ℕ :=
  match w.op with
  | .minLhsImm => ((σ w.lhs).iMinC (.ofQ w.imm)).2
  | .minLhsRhs => ((σ w.lhs).iMinC (σ w.rhs)).2
  | .maxLhsImm => ((σ w.lhs).iMaxC (.ofQ w.imm)).2
  | .maxLhsRhs => ((σ w.lhs).iMaxC (σ w.rhs)).2
  | _ => 0

/-- The interval pass of `v3_eval_tiles_i` over a clause list: final
registers, the recorded choice sequence (in recording order), and
`has_any_choice`. -/
def vEvalI : List VWord → (ℕ → GInterval) → (ℕ → GInterval) × List ℕ × Bool
  | [], σ => (σ, [], false)
  | w :: ws, σ =>
    let c := vChoiceOf σ w
    let r := vEvalI ws (vStepIRegs σ w)
    (r.1, (if w.op.hasChoice then [c] else []) ++ r.2.1,
     r.2.2 || (w.op.hasChoice && c ≠ 0))

/-- One clause of the v3 pointwise evaluator (`v3_eval_voxels_f`, v3.cu
lines 585-638; the per-lane semantics of the `float2` pack — both lanes are
identical scalar evaluation). -/
def vEvalFStep (σ : ℕ → ℚ) (w : VWord) : ℕ → ℚ :=
  match w.op with
  | .nop | .jump => σ
  | .squareLhs => upd σ w.out (σ w.lhs * σ w.lhs)
  | .negLhs => upd σ w.out (-σ w.lhs)
  | .absLhs => upd σ w.out |σ w.lhs|
  | .addLhsImm => upd σ w.out (σ w.lhs + w.imm)
  | .addLhsRhs => upd σ w.out (σ w.lhs + σ w.rhs)
  | .mulLhsImm => upd σ w.out (σ w.lhs * w.imm)
  | .mulLhsRhs => upd σ w.out (σ w.lhs * σ w.rhs)
  | .minLhsImm => upd σ w.out (min (σ w.lhs) w.imm)
  | .minLhsRhs => upd σ w.out (min (σ w.lhs) (σ w.rhs))
  | .maxLhsImm => upd σ w.out (max (σ w.lhs) w.imm)
  | .maxLhsRhs => upd σ w.out (max (σ w.lhs) (σ w.rhs))
  | .subLhsImm => upd σ w.out (σ w.lhs - w.imm)
  | .subImmRhs => upd σ w.out (w.imm - σ w.rhs)
  | .subLhsRhs => upd σ w.out (σ w.lhs - σ w.rhs)
  | .copyImm => upd σ w.out w.imm
  | .copyLhs => upd σ w.out (σ w.lhs)
  | .copyRhs => upd σ w.out (σ w.rhs)

/-- Pointwise evaluation of a v3 clause list. -/
def vEvalF (ws : List VWord) (σ : ℕ → ℚ) : ℕ → ℚ :=
  ws.foldl vEvalFStep σ

/-! The backward tape-pushing walk of `v3_eval_tiles_i` (v3.cu lines
239-328), at the level of the flattened clause list: process the suffix
first (the source walks backwards from the root), consume one choice per
MIN/MAX clause, keep / rewrite to `COPY_*` / elide each active clause, and
update the active-slot set.  The chunked write plumbing (claims, `JUMP`
links, offsets) places these clauses in memory and is modelled separately. -/

/-- `if (i) active[i] = true;` — activate a slot unless it is the 0
sentinel. -/
def actMark (A : ℕ → Bool) (x : ℕ) : ℕ → Bool :=
  if x ≠ 0 then upd A x true else A

/-- One clause of the backward walk: given the recorded choice and the
(emitted, active) state of the already-processed suffix, keep / rewrite /
elide the clause and update the active set (v3.cu lines 254-327). -/
def vSpecStep (w : VWord) (cho : ℕ) (acc : List VWord × (ℕ → Bool)) :
    List VWord × (ℕ → Bool) :=
  if acc.2 w.out then
    if cho = 0 then
      (w :: acc.1, actMark (actMark (upd acc.2 w.out false) w.lhs) w.rhs)
    else if cho = 1 then
      if w.lhs = w.out then (acc.1, upd (upd acc.2 w.out false) w.lhs true)
      else ({w with op := .copyLhs} :: acc.1,
            upd (upd acc.2 w.out false) w.lhs true)
    else if cho = 2 then
      if w.rhs ≠ 0 then
        if w.rhs = w.out then (acc.1, upd (upd acc.2 w.out false) w.rhs true)
        else ({w with op := .copyRhs} :: acc.1,
              upd (upd acc.2 w.out false) w.rhs true)
      else ({w with op := .copyImm} :: acc.1, upd acc.2 w.out false)
    else
      -- not reachable for recorded choices (codes are ≤ 2): the if/else
      -- chain of the source falls through, emitting the clause unchanged
      (w :: acc.1, upd acc.2 w.out false)
  else acc

def vSpecGo : List VWord → (ℕ → Bool) → List ℕ → List VWord × (ℕ → Bool)
  | [], A, _ => ([], A)
  | w :: ws, A, chs =>
    vSpecStep w (if w.op.hasChoice then chs.headD 0 else 0)
      (vSpecGo ws A (if w.op.hasChoice then chs.tail else chs))

/-! ## Forward soundness of the v3 interval pass and choice recording -/

/-- Pointwise correctness of one recorded choice code: it is at most 2, and
an unambiguous code implies the corresponding operand dominates pointwise at
the moment the clause executes. -/
def okChoice (σ : ℕ → ℚ) (w : VWord) (c : ℕ) : Prop :=
  c ≤ 2 ∧
  match w.op with
  | .minLhsImm => (c = 1 → σ w.lhs ≤ w.imm) ∧ (c = 2 → w.imm ≤ σ w.lhs)
  | .minLhsRhs => (c = 1 → σ w.lhs ≤ σ w.rhs) ∧ (c = 2 → σ w.rhs ≤ σ w.lhs)
  | .maxLhsImm => (c = 1 → w.imm ≤ σ w.lhs) ∧ (c = 2 → σ w.lhs ≤ w.imm)
  | .maxLhsRhs => (c = 1 → σ w.rhs ≤ σ w.lhs) ∧ (c = 2 → σ w.lhs ≤ σ w.rhs)
  | _ => True

/-- The recorded choice sequence is pointwise correct along the pointwise
evaluation trace of the clause list. -/
def PWOK : List VWord → (ℕ → ℚ) → List ℕ → Prop
  | [], _, _ => True
  | w :: ws, σ, chs =>
    if w.op.hasChoice then
      okChoice σ w (chs.headD 0) ∧ PWOK ws (vEvalFStep σ w) chs.tail
    else PWOK ws (vEvalFStep σ w) chs

theorem WfAll.updW {ρ : ℕ → GInterval} (h : WfAll ρ) {v : GInterval}
    (hv : v.wf) (x : ℕ) : WfAll (upd ρ x v) := by
  intro s
  by_cases hs : s = x
  · subst hs; rw [upd_same]; exact hv
  · rw [upd_other _ _ hs]; exact h s

theorem SRel.updM {σ : ℕ → ℚ} {ρ : ℕ → GInterval} (h : SRel σ ρ) {v : ℚ}
    {iv : GInterval} (hv : GInterval.memQ v iv) (x : ℕ) :
    SRel (upd σ x v) (upd ρ x iv) := by
  intro s
  by_cases hs : s = x
  · subst hs; rw [upd_same, upd_same]; exact hv
  · rw [upd_other _ _ hs, upd_other _ _ hs]; exact h s

theorem vStepIRegs_wf (σI : ℕ → GInterval) (w : VWord) (h : WfAll σI) :
    WfAll (vStepIRegs σI w) := by
  cases hop : w.op <;> simp only [vStepIRegs, hop]
  case nop => exact h
  case jump => exact h
  case squareLhs => exact h.updW (GInterval.wf_iSquare (h _)) _
  case negLhs => exact h.updW (GInterval.wf_iNeg (h _)) _
  case absLhs => exact h.updW (GInterval.wf_iAbs (h _)) _
  case addLhsImm => exact h.updW (GInterval.wf_iAdd (h _) (GInterval.wf_ofQ _)) _
  case addLhsRhs => exact h.updW (GInterval.wf_iAdd (h _) (h _)) _
  case mulLhsImm => exact h.updW GInterval.wf_iMul _
  case mulLhsRhs => exact h.updW GInterval.wf_iMul _
  case minLhsImm => exact h.updW (GInterval.wf_iMinC (h _) (GInterval.wf_ofQ _)) _
  case minLhsRhs => exact h.updW (GInterval.wf_iMinC (h _) (h _)) _
  case maxLhsImm => exact h.updW (GInterval.wf_iMaxC (h _) (GInterval.wf_ofQ _)) _
  case maxLhsRhs => exact h.updW (GInterval.wf_iMaxC (h _) (h _)) _
  case subLhsImm => exact h.updW (GInterval.wf_iSub (h _) (GInterval.wf_ofQ _)) _
  case subImmRhs => exact h.updW (GInterval.wf_iSub (GInterval.wf_ofQ _) (h _)) _
  case subLhsRhs => exact h.updW (GInterval.wf_iSub (h _) (h _)) _
  case copyImm => exact h.updW (GInterval.wf_ofQ _) _
  case copyLhs => exact h.updW (h _) _
  case copyRhs => exact h.updW (h _) _

theorem vStepIRegs_sound (σF : ℕ → ℚ) (σI : ℕ → GInterval) (w : VWord)
    (h : SRel σF σI) : SRel (vEvalFStep σF w) (vStepIRegs σI w) := by
  cases hop : w.op <;> simp only [vStepIRegs, vEvalFStep, hop]
  case nop => exact h
  case jump => exact h
  case squareLhs => exact h.updM (GInterval.memQ_iSquare (h _)) _
  case negLhs => exact h.updM (GInterval.memQ_iNeg (h _)) _
  case absLhs => exact h.updM (GInterval.memQ_iAbs (h _)) _
  case addLhsImm => exact h.updM (GInterval.memQ_iAdd (h _) (GInterval.memQ_ofQ _)) _
  case addLhsRhs => exact h.updM (GInterval.memQ_iAdd (h _) (h _)) _
  case mulLhsImm => exact h.updM (GInterval.memQ_iMul (h _) (GInterval.memQ_ofQ _)) _
  case mulLhsRhs => exact h.updM (GInterval.memQ_iMul (h _) (h _)) _
  case minLhsImm => exact h.updM (GInterval.memQ_iMinC (h _) (GInterval.memQ_ofQ _)) _
  case minLhsRhs => exact h.updM (GInterval.memQ_iMinC (h _) (h _)) _
  case maxLhsImm => exact h.updM (GInterval.memQ_iMaxC (h _) (GInterval.memQ_ofQ _)) _
  case maxLhsRhs => exact h.updM (GInterval.memQ_iMaxC (h _) (h _)) _
  case subLhsImm => exact h.updM (GInterval.memQ_iSub (h _) (GInterval.memQ_ofQ _)) _
  case subImmRhs => exact h.updM (GInterval.memQ_iSub (GInterval.memQ_ofQ _) (h _)) _
  case subLhsRhs => exact h.updM (GInterval.memQ_iSub (h _) (h _)) _
  case copyImm => exact h.updM (GInterval.memQ_ofQ _) _
  case copyLhs => exact h.updM (h _) _
  case copyRhs => exact h.updM (h _) _

theorem vChoiceOf_ok (σF : ℕ → ℚ) (σI : ℕ → GInterval) (w : VWord)
    (h : SRel σF σI) : okChoice σF w (vChoiceOf σI w) := by
  cases hop : w.op <;> simp only [okChoice, vChoiceOf, hop]
  case minLhsImm =>
    exact ⟨GInterval.iMinC_choice_le2 _ _,
      fun hc => GInterval.iMinC_choice1 (h _) (GInterval.memQ_ofQ _) hc,
      fun hc => GInterval.iMinC_choice2 (h _) (GInterval.memQ_ofQ _) hc⟩
  case minLhsRhs =>
    exact ⟨GInterval.iMinC_choice_le2 _ _,
      fun hc => GInterval.iMinC_choice1 (h _) (h _) hc,
      fun hc => GInterval.iMinC_choice2 (h _) (h _) hc⟩
  case maxLhsImm =>
    exact ⟨GInterval.iMaxC_choice_le2 _ _,
      fun hc => GInterval.iMaxC_choice1 (h _) (GInterval.memQ_ofQ _) hc,
      fun hc => GInterval.iMaxC_choice2 (h _) (GInterval.memQ_ofQ _) hc⟩
  case maxLhsRhs =>
    exact ⟨GInterval.iMaxC_choice_le2 _ _,
      fun hc => GInterval.iMaxC_choice1 (h _) (h _) hc,
      fun hc => GInterval.iMaxC_choice2 (h _) (h _) hc⟩
  all_goals exact ⟨by norm_num, trivial⟩

theorem vEvalI_sound (ws : List VWord) (σI : ℕ → GInterval) (σF : ℕ → ℚ)
    (hmem : SRel σF σI) (hwf : WfAll σI) :
    SRel (vEvalF ws σF) (vEvalI ws σI).1 ∧ WfAll (vEvalI ws σI).1 ∧
      PWOK ws σF (vEvalI ws σI).2.1 := by
  induction ws generalizing σI σF with
  | nil => exact ⟨hmem, hwf, trivial⟩
  | cons w ws ih =>
    have hm' := vStepIRegs_sound σF σI w hmem
    have hw' := vStepIRegs_wf σI w hwf
    have hok := vChoiceOf_ok σF σI w hmem
    obtain ⟨h1, h2, h3⟩ := ih (vStepIRegs σI w) (vEvalFStep σF w) hm' hw'
    refine ⟨h1, h2, ?_⟩
    show PWOK (w :: ws) σF
      ((if w.op.hasChoice then [vChoiceOf σI w] else [])
        ++ (vEvalI ws (vStepIRegs σI w)).2.1)
    by_cases hch : w.op.hasChoice
    · simp only [PWOK, hch, if_pos, List.cons_append, List.nil_append,
        List.headD_cons, List.tail_cons, if_true]
      exact ⟨hok, h3⟩
    · simp only [PWOK, Bool.not_eq_true] at hch ⊢
      rw [hch]
      simpa using h3

/-! ## Dead-code-elimination correctness of the v3 specializer -/

theorem vEvalF_cons (w : VWord) (ws : List VWord) (σ : ℕ → ℚ) :
    vEvalF (w :: ws) σ = vEvalF ws (vEvalFStep σ w) := rfl

theorem vEvalFStep_frame (σ : ℕ → ℚ) (w : VWord) {t : ℕ} (ht : t ≠ w.out) :
    vEvalFStep σ w t = σ t := by
  cases hop : w.op <;> simp only [vEvalFStep, hop] <;>
    first
      | rfl
      | exact upd_other _ _ ht

theorem vEvalFStep_out_congr (σ σ' : ℕ → ℚ) (w : VWord)
    (hn : w.op ≠ .nop) (hj : w.op ≠ .jump)
    (hl : w.op.readsLhs = true → σ w.lhs = σ' w.lhs)
    (hr : w.op.readsRhs = true → σ w.rhs = σ' w.rhs) :
    vEvalFStep σ w w.out = vEvalFStep σ' w w.out := by
  cases hop : w.op <;> simp only [vEvalFStep, hop, upd_same]
  case nop => exact absurd hop hn
  case jump => exact absurd hop hj
  case squareLhs => rw [hl (by rw [hop]; rfl)]
  case negLhs => rw [hl (by rw [hop]; rfl)]
  case absLhs => rw [hl (by rw [hop]; rfl)]
  case addLhsImm => rw [hl (by rw [hop]; rfl)]
  case addLhsRhs => rw [hl (by rw [hop]; rfl), hr (by rw [hop]; rfl)]
  case mulLhsImm => rw [hl (by rw [hop]; rfl)]
  case mulLhsRhs => rw [hl (by rw [hop]; rfl), hr (by rw [hop]; rfl)]
  case minLhsImm => rw [hl (by rw [hop]; rfl)]
  case minLhsRhs => rw [hl (by rw [hop]; rfl), hr (by rw [hop]; rfl)]
  case maxLhsImm => rw [hl (by rw [hop]; rfl)]
  case maxLhsRhs => rw [hl (by rw [hop]; rfl), hr (by rw [hop]; rfl)]
  case subLhsImm => rw [hl (by rw [hop]; rfl)]
  case subImmRhs => rw [hr (by rw [hop]; rfl)]
  case subLhsRhs => rw [hl (by rw [hop]; rfl), hr (by rw [hop]; rfl)]
  case copyLhs => rw [hl (by rw [hop]; rfl)]
  case copyRhs => rw [hr (by rw [hop]; rfl)]

/-- The pointwise value of a choice clause whose recorded choice is 1 equals
its LHS operand. -/
theorem choice1_out (σ' : ℕ → ℚ) (w : VWord) (hch : w.op.hasChoice = true)
    (hok : okChoice σ' w 1) : vEvalFStep σ' w w.out = σ' w.lhs := by
  obtain ⟨-, hok2⟩ := hok
  cases hop : w.op
  case minLhsImm =>
    rw [hop] at hok2
    simp only [vEvalFStep, hop, upd_same]
    exact min_eq_left (hok2.1 rfl)
  case minLhsRhs =>
    rw [hop] at hok2
    simp only [vEvalFStep, hop, upd_same]
    exact min_eq_left (hok2.1 rfl)
  case maxLhsImm =>
    rw [hop] at hok2
    simp only [vEvalFStep, hop, upd_same]
    exact max_eq_left (hok2.1 rfl)
  case maxLhsRhs =>
    rw [hop] at hok2
    simp only [vEvalFStep, hop, upd_same]
    exact max_eq_left (hok2.1 rfl)
  all_goals exact Bool.noConfusion (hop ▸ hch)

/-- The pointwise value of a register-RHS choice clause whose recorded
choice is 2 equals its RHS operand. -/
theorem choice2_out_reg (σ' : ℕ → ℚ) (w : VWord) (hch : w.op.hasChoice = true)
    (hrr : w.op.readsRhs = true) (hok : okChoice σ' w 2) :
    vEvalFStep σ' w w.out = σ' w.rhs := by
  obtain ⟨-, hok2⟩ := hok
  cases hop : w.op
  case minLhsRhs =>
    rw [hop] at hok2
    simp only [vEvalFStep, hop, upd_same]
    exact min_eq_right (hok2.2 rfl)
  case maxLhsRhs =>
    rw [hop] at hok2
    simp only [vEvalFStep, hop, upd_same]
    exact max_eq_right (hok2.2 rfl)
  all_goals
    first
      | exact Bool.noConfusion (hop ▸ hch)
      | exact Bool.noConfusion (hop ▸ hrr)

/-- The pointwise value of an immediate-RHS choice clause whose recorded
choice is 2 equals its immediate. -/
theorem choice2_out_imm (σ' : ℕ → ℚ) (w : VWord) (hch : w.op.hasChoice = true)
    (hrr : w.op.readsRhs = false) (hok : okChoice σ' w 2) :
    vEvalFStep σ' w w.out = w.imm := by
  obtain ⟨-, hok2⟩ := hok
  cases hop : w.op
  case minLhsImm =>
    rw [hop] at hok2
    simp only [vEvalFStep, hop, upd_same]
    exact min_eq_right (hok2.2 rfl)
  case maxLhsImm =>
    rw [hop] at hok2
    simp only [vEvalFStep, hop, upd_same]
    exact max_eq_right (hok2.2 rfl)
  all_goals
    first
      | exact Bool.noConfusion (hop ▸ hch)
      | exact Bool.noConfusion (hop ▸ hrr)

theorem upd_true_of {A : ℕ → Bool} (x : ℕ) {t : ℕ} (h : A t = true) :
    upd A x true t = true := by
  by_cases ht : t = x
  · subst ht; exact upd_same _ _ _
  · rw [upd_other _ _ ht]; exact h

/-- A choice opcode always reads its LHS register. -/
theorem hasChoice_readsLhs {op : VOp} (h : op.hasChoice = true) :
    op.readsLhs = true := by
  cases op <;> first | rfl | exact Bool.noConfusion h

/-! ### Branch characterizations of `vSpecStep` and active-set facts -/

theorem vSpecStep_inactive (w : VWord) (cho : ℕ) (acc : List VWord × (ℕ → Bool))
    (h : acc.2 w.out = false) : vSpecStep w cho acc = acc := by
  unfold vSpecStep
  rw [if_neg (by simp [h])]

theorem vSpecStep_cho0 (w : VWord) (acc : List VWord × (ℕ → Bool))
    (h : acc.2 w.out = true) :
    vSpecStep w 0 acc
      = (w :: acc.1, actMark (actMark (upd acc.2 w.out false) w.lhs) w.rhs) := by
  unfold vSpecStep
  rw [if_pos (by simp [h])]
  norm_num

theorem vSpecStep_cho1_elide (w : VWord) (acc : List VWord × (ℕ → Bool))
    (h : acc.2 w.out = true) (hl : w.lhs = w.out) :
    vSpecStep w 1 acc = (acc.1, upd (upd acc.2 w.out false) w.lhs true) := by
  unfold vSpecStep
  rw [if_pos (by simp [h])]
  norm_num [hl]

theorem vSpecStep_cho1_emit (w : VWord) (acc : List VWord × (ℕ → Bool))
    (h : acc.2 w.out = true) (hl : ¬ w.lhs = w.out) :
    vSpecStep w 1 acc
      = ({w with op := .copyLhs} :: acc.1,
         upd (upd acc.2 w.out false) w.lhs true) := by
  unfold vSpecStep
  rw [if_pos (by simp [h])]
  norm_num [hl]

theorem vSpecStep_cho2_elide (w : VWord) (acc : List VWord × (ℕ → Bool))
    (h : acc.2 w.out = true) (hr : w.rhs ≠ 0) (he : w.rhs = w.out) :
    vSpecStep w 2 acc = (acc.1, upd (upd acc.2 w.out false) w.rhs true) := by
  unfold vSpecStep
  rw [if_pos (by simp [h])]
  norm_num [hr]
  exact he

theorem vSpecStep_cho2_emit (w : VWord) (acc : List VWord × (ℕ → Bool))
    (h : acc.2 w.out = true) (hr : w.rhs ≠ 0) (he : ¬ w.rhs = w.out) :
    vSpecStep w 2 acc
      = ({w with op := .copyRhs} :: acc.1,
         upd (upd acc.2 w.out false) w.rhs true) := by
  unfold vSpecStep
  rw [if_pos (by simp [h])]
  norm_num [hr]
  exact he

theorem vSpecStep_cho2_imm (w : VWord) (acc : List VWord × (ℕ → Bool))
    (h : acc.2 w.out = true) (hr : w.rhs = 0) :
    vSpecStep w 2 acc
      = ({w with op := .copyImm} :: acc.1, upd acc.2 w.out false) := by
  unfold vSpecStep
  rw [if_pos (by simp [h])]
  norm_num [hr]

theorem actMark_mono {A : ℕ → Bool} {t : ℕ} (h : A t = true) (x : ℕ) :
    actMark A x t = true := by
  unfold actMark
  split
  · exact upd_true_of _ h
  · exact h

theorem actMark_self {A : ℕ → Bool} {x : ℕ} (hx : x ≠ 0) :
    actMark A x x = true := by
  unfold actMark
  rw [if_pos hx]
  exact upd_same _ _ _

/-- Correctness of the backward specialization walk: if two pointwise
register files agree on the slots the specialized tape needs as inputs, then
running the specialized tape from the first agrees, on every slot active at
the root end, with running the original tape from the second — provided the
recorded choices are pointwise correct for the second run. -/
theorem vSpecGo_correct (ws : List VWord) :
    ∀ (A : ℕ → Bool) (chs : List ℕ) (σ σ' : ℕ → ℚ),
    (∀ w ∈ ws, w.wfc) →
    PWOK ws σ' chs →
    (∀ t, (vSpecGo ws A chs).2 t = true → σ t = σ' t) →
    ∀ s, A s = true → vEvalF (vSpecGo ws A chs).1 σ s = vEvalF ws σ' s := by
  induction ws with
  | nil =>
    intro A chs σ σ' _ _ hagree s hA
    exact hagree s hA
  | cons w ws ih =>
    intro A chs σ σ' hwf hpw hagree s hA
    obtain ⟨hnop, hjump, hrl, hrr0, hcr⟩ := hwf w (List.mem_cons_self w ws)
    have hwf' : ∀ u ∈ ws, u.wfc := fun u hu => hwf u (List.mem_cons_of_mem w hu)
    have hsplit : ∃ cho chs',
        vSpecGo (w :: ws) A chs = vSpecStep w cho (vSpecGo ws A chs') ∧
        PWOK ws (vEvalFStep σ' w) chs' ∧
        (w.op.hasChoice = true → okChoice σ' w cho) ∧
        (w.op.hasChoice = false → cho = 0) := by
      by_cases hch : w.op.hasChoice = true
      · refine ⟨chs.headD 0, chs.tail, by simp only [vSpecGo, hch, if_true], ?_, ?_, ?_⟩
        · simp only [PWOK, hch, if_true] at hpw
          exact hpw.2
        · intro _
          simp only [PWOK, hch, if_true] at hpw
          exact hpw.1
        · intro hc; rw [hch] at hc; cases hc
      · rw [Bool.not_eq_true] at hch
        refine ⟨0, chs, by simp only [vSpecGo, hch, Bool.false_eq_true, if_false], ?_, ?_, ?_⟩
        · simp only [PWOK, hch, Bool.false_eq_true, if_false] at hpw
          exact hpw
        · intro hc; rw [hch] at hc; cases hc
        · intro _; rfl
    obtain ⟨cho, chs', hunfold, hpwTail, hokFn, hchoDefault⟩ := hsplit
    rw [hunfold] at hagree ⊢
    rw [vEvalF_cons]
    by_cases hact : (vSpecGo ws A chs').2 w.out = true
    case neg =>
      -- the clause is dead: nothing is emitted, the active set is unchanged
      rw [Bool.not_eq_true] at hact
      rw [vSpecStep_inactive w cho _ hact] at hagree ⊢
      refine ih A chs' σ (vEvalFStep σ' w) hwf' hpwTail ?_ s hA
      intro t ht
      have hne : t ≠ w.out := by
        intro he; rw [he, hact] at ht; cases ht
      rw [vEvalFStep_frame σ' w hne]
      exact hagree t ht
    case pos =>
      have key : ∀ (σ₁ : ℕ → ℚ),
          (∀ t, (vSpecGo ws A chs').2 t = true → σ₁ t = vEvalFStep σ' w t) →
          vEvalF (vSpecGo ws A chs').1 σ₁ s = vEvalF ws (vEvalFStep σ' w) s :=
        fun σ₁ hag => ih A chs' σ₁ (vEvalFStep σ' w) hwf' hpwTail hag s hA
      by_cases hc0 : cho = 0
      · -- ambiguous (or non-choice) clause: emitted unchanged
        subst hc0
        rw [vSpecStep_cho0 w _ hact] at hagree ⊢
        show vEvalF (vSpecGo ws A chs').1 (vEvalFStep σ w) s = _
        refine key (vEvalFStep σ w) ?_
        intro t ht
        by_cases hto : t = w.out
        · subst hto
          refine vEvalFStep_out_congr σ σ' w hnop hjump ?_ ?_
          · intro hreads
            refine hagree w.lhs (actMark_mono (actMark_self (hrl hreads)) _)
          · intro hreads
            refine hagree w.rhs (actMark_self (hrr0 hreads))
        · rw [vEvalFStep_frame σ w hto, vEvalFStep_frame σ' w hto]
          refine hagree t (actMark_mono (actMark_mono ?_ _) _)
          rw [upd_other _ _ hto]
          exact ht
      · have hch : w.op.hasChoice = true := by
          by_contra hc
          rw [Bool.not_eq_true] at hc
          exact hc0 (hchoDefault hc)
        have hok := hokFn hch
        by_cases hc1 : cho = 1
        · subst hc1
          have hval := choice1_out σ' w hch hok
          by_cases hel : w.lhs = w.out
          · -- choice 1 with lhs = out: the clause is elided
            rw [vSpecStep_cho1_elide w _ hact hel] at hagree ⊢
            refine key σ ?_
            intro t ht
            by_cases hto : t = w.out
            · subst hto
              rw [hval, hel]
              refine hagree w.out ?_
              show upd (upd (vSpecGo ws A chs').2 w.out false) w.lhs true w.out
                = true
              rw [hel]
              exact upd_same _ _ _
            · rw [vEvalFStep_frame σ' w hto]
              refine hagree t (upd_true_of _ ?_)
              rw [upd_other _ _ hto]
              exact ht
          · -- choice 1: emit a COPY_LHS in place of the MIN/MAX
            rw [vSpecStep_cho1_emit w _ hact hel] at hagree ⊢
            show vEvalF (vSpecGo ws A chs').1
              (vEvalFStep σ { w with op := .copyLhs }) s = _
            refine key (vEvalFStep σ { w with op := .copyLhs }) ?_
            intro t ht
            by_cases hto : t = w.out
            · subst hto
              show vEvalFStep σ { w with op := .copyLhs } w.out = _
              have : vEvalFStep σ { w with op := .copyLhs } w.out = σ w.lhs := by
                simp only [vEvalFStep, upd_same]
              rw [this, hval]
              exact hagree w.lhs (upd_same _ _ _)
            · have hfr : vEvalFStep σ { w with op := .copyLhs } t = σ t :=
                vEvalFStep_frame σ _ hto
              rw [hfr, vEvalFStep_frame σ' w hto]
              refine hagree t (upd_true_of _ ?_)
              rw [upd_other _ _ hto]
              exact ht
        · by_cases hc2 : cho = 2
          · subst hc2
            by_cases hrz : w.rhs ≠ 0
            · have hreads : w.op.readsRhs = true := by
                rcases Bool.eq_false_or_eq_true w.op.readsRhs with hf | ht0
                · exact hf
                · exact absurd (hcr hch ht0) hrz
              have hval := choice2_out_reg σ' w hch hreads hok
              by_cases hel : w.rhs = w.out
              · rw [vSpecStep_cho2_elide w _ hact hrz hel] at hagree ⊢
                refine key σ ?_
                intro t ht
                by_cases hto : t = w.out
                · subst hto
                  rw [hval, ← hel]
                  refine hagree w.rhs ?_
                  exact upd_same _ _ _
                · rw [vEvalFStep_frame σ' w hto]
                  refine hagree t (upd_true_of _ ?_)
                  rw [upd_other _ _ hto]
                  exact ht
              · rw [vSpecStep_cho2_emit w _ hact hrz hel] at hagree ⊢
                show vEvalF (vSpecGo ws A chs').1
                  (vEvalFStep σ { w with op := .copyRhs }) s = _
                refine key (vEvalFStep σ { w with op := .copyRhs }) ?_
                intro t ht
                by_cases hto : t = w.out
                · subst hto
                  have : vEvalFStep σ { w with op := .copyRhs } w.out = σ w.rhs := by
                    simp only [vEvalFStep, upd_same]
                  rw [this, hval]
                  exact hagree w.rhs (upd_same _ _ _)
                · have hfr : vEvalFStep σ { w with op := .copyRhs } t = σ t :=
                    vEvalFStep_frame σ _ hto
                  rw [hfr, vEvalFStep_frame σ' w hto]
                  refine hagree t (upd_true_of _ ?_)
                  rw [upd_other _ _ hto]
                  exact ht
            · push_neg at hrz
              have hreads : w.op.readsRhs = false := by
                rcases Bool.eq_false_or_eq_true w.op.readsRhs with ht0 | hf
                · exact absurd hrz (hrr0 ht0)
                · exact hf
              have hval := choice2_out_imm σ' w hch hreads hok
              rw [vSpecStep_cho2_imm w _ hact hrz] at hagree ⊢
              show vEvalF (vSpecGo ws A chs').1
                (vEvalFStep σ { w with op := .copyImm }) s = _
              refine key (vEvalFStep σ { w with op := .copyImm }) ?_
              intro t ht
              by_cases hto : t = w.out
              · subst hto
                have : vEvalFStep σ { w with op := .copyImm } w.out = w.imm := by
                  simp only [vEvalFStep, upd_same]
                rw [this, hval]
              · have hfr : vEvalFStep σ { w with op := .copyImm } t = σ t :=
                  vEvalFStep_frame σ _ hto
                rw [hfr, vEvalFStep_frame σ' w hto]
                refine hagree t ?_
                show upd (vSpecGo ws A chs').2 w.out false t = true
                rw [upd_other _ _ hto]
                exact ht
          · -- a recorded choice is at most 2: this branch is unreachable
            exact absurd hok.1 (by omega)

/-- The specialized clause list `v3_eval_tiles_i` writes for a tile: the
backward walk started with only the root slot (`i_out` of the end-of-tape
word) active, replaying the recorded choices. -/
def vSpecialize (ws : List VWord) (iOut : ℕ) (chs : List ℕ) : List VWord :=
  (vSpecGo ws (upd (fun _ => false) iOut true) chs).1

/-- **C2.** For every tile classified Ambiguous, evaluating the specialized
subtape produced for that tile at any point inside the tile yields a result
equal to evaluating the parent (unspecialized) tape at the same point: for
every pointwise register file `σF` lying inside the tile's interval register
file `σI` (under which the recorded choices were taken), the specialized
tape and the parent tape evaluate to the same root value.  In the rational
model "bitwise-equal floats" is equality in `ℚ`; every arithmetic step both
evaluators perform is exact, so equal rational results correspond to
bit-identical floats on identical hardware operations. -/
theorem subtape_specialization_equivalent (ws : List VWord) (iOut : ℕ)
    (σI : ℕ → GInterval) (σF : ℕ → ℚ)
    (hwf : ∀ w ∈ ws, w.wfc)
    (hwfI : WfAll σI) (hmem : SRel σF σI)
    (hambig : ¬ ((vEvalI ws σI).1 iOut).hi < 0 ∧
              ¬ ((vEvalI ws σI).1 iOut).lo > 0) :
    vEvalF (vSpecialize ws iOut (vEvalI ws σI).2.1) σF iOut
      = vEvalF ws σF iOut := by
  have hpw := (vEvalI_sound ws σI σF hmem hwfI).2.2
  exact vSpecGo_correct ws (upd (fun _ => false) iOut true) (vEvalI ws σI).2.1
    σF σF hwf hpw (fun t _ => rfl) iOut (upd_same _ _ _)

/-- Witness for C2 on the tape `[MIN r1 r2 → r3]` over an ambiguous tile
(`r1 = [-1,1]`, `r2 = [0,2]`) and a sample point (`r1 = 0`, `r2 = 1`). -/
theorem subtape_specialization_equivalent_witness :
    vEvalF
      (vSpecialize [⟨.minLhsRhs, 3, 1, 2, 0, 0⟩] 3
        (vEvalI [⟨.minLhsRhs, 3, 1, 2, 0, 0⟩]
          (fun s => if s = 1 then ⟨-1, 1⟩ else if s = 2 then ⟨0, 2⟩
            else ⟨0, 0⟩)).2.1)
      (fun s => if s = 1 then 0 else if s = 2 then 1 else 0) 3
    = vEvalF [⟨.minLhsRhs, 3, 1, 2, 0, 0⟩]
      (fun s => if s = 1 then 0 else if s = 2 then 1 else 0) 3 := by
  refine subtape_specialization_equivalent _ _ _ _ ?_ ?_ ?_ ?_
  · decide
  · intro t
    by_cases h1 : t = 1 <;> by_cases h2 : t = 2 <;>
      simp [h1, h2, GInterval.wf]
  · intro t
    by_cases h1 : t = 1 <;> by_cases h2 : t = 2 <;>
      simp [h1, h2, GInterval.memQ]
  · exact ⟨by decide, by decide⟩

/-! ## The v3 tape compiler (`build_v3_blob`, v3.cu lines 819-1035)

The input contract is the spec's §6: an iterable topological order of
expression nodes, each exposing an opcode, an optional constant value and up
to two operand references.  Nodes are identified by their index in the list.
The unary transcendental, square-root and division cases of the builder are
structurally identical to the modelled unary/noncommutative cases but their
evaluation kernels are outside the rational fragment, so the modelled input
opcode set omits them. -/

/-- libfive opcodes as seen by the builders (`libfive::Opcode`). -/
inductive NOp where
  | const | varX | varY | varZ
  | square | neg | abs
  | add | mul | min | max
  | sub
  | tan | recip | atan2 | pow | nthRoot | mod | nanfill | compare
  | varFree | constVar | oracle | invalid | lastOp
  deriving DecidableEq, Repr

/-- An expression node: opcode, constant value, operand references
(indices of earlier nodes in the topologically ordered list). -/
structure VNode where
  op : NOp
  value : ℚ := 0
  lhs : Option ℕ := none
  rhs : Option ℕ := none
  deriving DecidableEq, Repr

/-- The opcodes of the `case INVALID: ... case LAST_OP:` group in
`build_v3_blob` (v3.cu lines 988-1002): "Unimplemented opcode". -/
def NOp.isUnsupported : NOp → Bool
  | .tan | .recip | .atan2 | .pow | .nthRoot | .mod | .nanfill | .compare
  | .varFree | .constVar | .oracle | .invalid | .lastOp => true
  | _ => false

/-- Diagnostics printed to stderr by the builders. -/
inductive BuildDiag where
  | unimplementedOpcode   -- "Unimplemented opcode"
  | ranOutOfSlots         -- "Ran out of slots!"
  | couldNotFindSlots     -- "Could not find bound slots"
  deriving DecidableEq, Repr

def dfltVNode : VNode := ⟨.invalid, 0, none, none⟩

def nodeAt (ns : List VNode) (i : ℕ) : VNode := ns.getD i dfltVNode

/-- `last_used[c.lhs().id()] = c.id();` over the whole list (v3.cu lines
857-869; `operator[]` overwrites, so the map ends up holding the last
user). -/
def lastUsed (ns : List VNode) : ℕ → Option ℕ :=
  ns.enum.foldl
    (fun m p =>
      if (nodeAt ns p.1).op == .const then m
      else
        let m1 := match p.2.lhs with
          | some h => upd m h (some p.1)
          | none => m
        match p.2.rhs with
          | some h => upd m1 h (some p.1)
          | none => m1)
    (fun _ => none)

/-- `axes_used[i] |= (c == Tree::X())` etc. -/
def axesUsed (ns : List VNode) (op : NOp) : Bool :=
  ns.any (fun c => c.op == op)

/-- The id of the axis tree: the index of its (unique) node. -/
def axisIdx (ns : List VNode) (op : NOp) : ℕ :=
  ns.findIdx (fun c => c.op == op)

/-- The builder's mutable slot-allocation state. -/
structure BuildSt where
  freeSlots : List ℕ            -- `free_slots` (head = vector back)
  boundSlots : ℕ → Option ℕ     -- `bound_slots`
  numSlots : ℕ                  -- `num_slots`
  diags : List BuildDiag

/-- `getSlot` (v3.cu lines 875-889): pop a freed slot or allocate a fresh
one (warning once `num_slots` reaches `UINT8_MAX`), and bind it. -/
def getSlot (st : BuildSt) (id : ℕ) : ℕ × BuildSt :=
  match st.freeSlots with
  | o :: rest =>
    (o, { st with freeSlots := rest, boundSlots := upd st.boundSlots id (some o) })
  | [] =>
    (st.numSlots,
     { st with
        numSlots := st.numSlots + 1
        diags := if st.numSlots + 1 = 255 then st.diags ++ [.ranOutOfSlots]
                 else st.diags
        boundSlots := upd st.boundSlots id (some st.numSlots) })

/-- `get_reg` (v3.cu lines 907-915): look up a bound slot, warning (and
answering 0) when the operand is not bound. -/
def getReg (st : BuildSt) (id? : Option ℕ) : ℕ × BuildSt :=
  match id? with
  | some i =>
    match st.boundSlots i with
    | some r => (r, st)
    | none => (0, { st with diags := st.diags ++ [.couldNotFindSlots] })
  | none => (0, { st with diags := st.diags ++ [.couldNotFindSlots] })

/-- Is the referenced node a CONSTANT? (`c->lhs->op == CONSTANT`). -/
def isConstRef (ns : List VNode) (id? : Option ℕ) : Bool :=
  match id? with
  | some i => (nodeAt ns i).op == .const
  | none => false

/-- Value of a constant operand. -/
def refValue (ns : List VNode) (id? : Option ℕ) : ℚ :=
  match id? with
  | some i => (nodeAt ns i).value
  | none => 0

/-- The `switch (c->op)` clause construction of `build_v3_blob` (v3.cu
lines 917-1003): `none` means the node emits no clause (`continue` for
constants and axis terminals); otherwise the clause before its `I_OUT` is
assigned.  Unsupported opcodes print a diagnostic and leave the clause
zero. -/
def emitNode (ns : List VNode) (st : BuildSt) (c : VNode) :
    Option VWord × BuildSt :=
  match c.op with
  | .const | .varX | .varY | .varZ => (none, st)
  | .square =>
    let r := getReg st c.lhs
    (some { VWord.zero with op := .squareLhs, lhs := r.1 }, r.2)
  | .neg =>
    let r := getReg st c.lhs
    (some { VWord.zero with op := .negLhs, lhs := r.1 }, r.2)
  | .abs =>
    let r := getReg st c.lhs
    (some { VWord.zero with op := .absLhs, lhs := r.1 }, r.2)
  | .add => emitCommutative ns st c .addLhsImm .addLhsRhs
  | .mul => emitCommutative ns st c .mulLhsImm .mulLhsRhs
  | .min => emitCommutative ns st c .minLhsImm .minLhsRhs
  | .max => emitCommutative ns st c .maxLhsImm .maxLhsRhs
  | .sub => emitNoncommutative ns st c .subImmRhs .subLhsImm .subLhsRhs
  | _ => (some VWord.zero, { st with diags := st.diags ++ [.unimplementedOpcode] })
where
  /-- `OP_COMMUTATIVE` (v3.cu lines 946-966). -/
  emitCommutative (ns : List VNode) (st : BuildSt) (c : VNode)
      (immOp regOp : VOp) : Option VWord × BuildSt :=
    if isConstRef ns c.lhs then
      let r := getReg st c.rhs
      (some { VWord.zero with op := immOp, lhs := r.1, imm := refValue ns c.lhs },
       r.2)
    else if isConstRef ns c.rhs then
      let r := getReg st c.lhs
      (some { VWord.zero with op := immOp, lhs := r.1, imm := refValue ns c.rhs },
       r.2)
    else
      let rl := getReg st c.lhs
      let rr := getReg rl.2 c.rhs
      (some { VWord.zero with op := regOp, lhs := rl.1, rhs := rr.1 }, rr.2)
  /-- `OP_NONCOMMUTATIVE` (v3.cu lines 968-984). -/
  emitNoncommutative (ns : List VNode) (st : BuildSt) (c : VNode)
      (immRhsOp lhsImmOp regOp : VOp) : Option VWord × BuildSt :=
    if isConstRef ns c.lhs then
      let r := getReg st c.rhs
      (some { VWord.zero with
                op := immRhsOp
                rhs := r.1
                imm := refValue ns c.lhs }, r.2)
    else if isConstRef ns c.rhs then
      let r := getReg st c.lhs
      (some { VWord.zero with
                op := lhsImmOp
                lhs := r.1
                imm := refValue ns c.rhs }, r.2)
    else
      let rl := getReg st c.lhs
      let rr := getReg rl.2 c.rhs
      (some { VWord.zero with op := regOp, lhs := rl.1, rhs := rr.1 }, rr.2)

/-- Slot release for an operand whose last use is the current node (v3.cu
lines 1005-1016). -/
def releaseOperand (ns : List VNode) (lu : ℕ → Option ℕ) (i : ℕ)
    (st : BuildSt) (h? : Option ℕ) : BuildSt :=
  match h? with
  | none => st
  | some h =>
    if (nodeAt ns h).op ≠ .const ∧ lu h = some i then
      match st.boundSlots h with
      | some slot =>
        { st with freeSlots := slot :: st.freeSlots
                  boundSlots := upd st.boundSlots h none }
      | none => st
    else st

/-- One node of the builder's main loop (emit, release, assign `I_OUT`,
append). -/
def buildStep (ns : List VNode) (lu : ℕ → Option ℕ)
    (acc : BuildSt × List VWord) (p : ℕ × VNode) : BuildSt × List VWord :=
  let r := emitNode ns acc.1 p.2
  match r.1 with
  | none => (r.2, acc.2)
  | some cl =>
    let st2 := releaseOperand ns lu p.1 r.2 p.2.lhs
    let st3 := releaseOperand ns lu p.1 st2 p.2.rhs
    let o := getSlot st3 p.1
    (o.2, acc.2 ++ [{ cl with out := o.1 }])

/-- The compiled blob: the flat tape (axis header word, clauses, end word),
the final slot count and the collected diagnostics. -/
structure V3Blob where
  tape : List VWord
  num_slots : ℕ
  diags : List BuildDiag
  deriving DecidableEq, Repr

/-- `build_v3_blob` (v3.cu lines 819-1035), tape-planning part: bind the
used axes to slots in the header word, compile each node in order, then
push the end word carrying the root slot.  Construction never fails: every
diagnostic is an stderr print after which the builder carries on. -/
def build_v3_blob (ns : List VNode) : V3Blob :=
  let lu := lastUsed ns
  let st0 : BuildSt := ⟨[], fun _ => none, 1, []⟩
  let rx := if axesUsed ns .varX then getSlot st0 (axisIdx ns .varX) else (0, st0)
  let ry := if axesUsed ns .varY then getSlot rx.2 (axisIdx ns .varY) else (0, rx.2)
  let rz := if axesUsed ns .varZ then getSlot ry.2 (axisIdx ns .varZ) else (0, ry.2)
  let header : VWord := { VWord.zero with out := rx.1, lhs := ry.1, rhs := rz.1 }
  let body := ns.enum.foldl (buildStep ns lu) (rz.2, [])
  let root := getReg body.1 (if ns.isEmpty then none else some (ns.length - 1))
  let endW : VWord := { VWord.zero with out := root.1 }
  ⟨header :: body.2 ++ [endW], root.2.numSlots, root.2.diags⟩

/-! ## C6: unsupported opcodes do not fail construction -/

theorem getSlot_diags_mem {st : BuildSt} {id : ℕ} {d : BuildDiag}
    (h : d ∈ st.diags) : d ∈ (getSlot st id).2.diags := by
  unfold getSlot
  cases st.freeSlots with
  | nil =>
    simp only
    split
    · exact List.mem_append_left _ h
    · exact h
  | cons o rest => exact h

theorem getReg_diags_mem {st : BuildSt} {id? : Option ℕ} {d : BuildDiag}
    (h : d ∈ st.diags) : d ∈ (getReg st id?).2.diags := by
  unfold getReg
  cases id? with
  | none => exact List.mem_append_left _ h
  | some i =>
    dsimp only
    cases st.boundSlots i with
    | none => exact List.mem_append_left _ h
    | some r => exact h

theorem emitNode_diags_mem {ns : List VNode} {st : BuildSt} {c : VNode}
    {d : BuildDiag} (h : d ∈ st.diags) : d ∈ (emitNode ns st c).2.diags := by
  cases hop : c.op <;> simp only [emitNode, hop]
  case const => exact h
  case varX => exact h
  case varY => exact h
  case varZ => exact h
  case square => exact getReg_diags_mem h
  case neg => exact getReg_diags_mem h
  case abs => exact getReg_diags_mem h
  all_goals
    first
      | exact List.mem_append_left _ h
      | (unfold emitNode.emitCommutative
         split
         · exact getReg_diags_mem h
         · split
           · exact getReg_diags_mem h
           · exact getReg_diags_mem (getReg_diags_mem h))
      | (unfold emitNode.emitNoncommutative
         split
         · exact getReg_diags_mem h
         · split
           · exact getReg_diags_mem h
           · exact getReg_diags_mem (getReg_diags_mem h))

theorem releaseOperand_diags_eq (ns : List VNode) (lu : ℕ → Option ℕ) (i : ℕ)
    (st : BuildSt) (h? : Option ℕ) :
    (releaseOperand ns lu i st h?).diags = st.diags := by
  unfold releaseOperand
  cases h? with
  | none => rfl
  | some h =>
    dsimp only
    split
    · cases st.boundSlots h <;> rfl
    · rfl

theorem buildStep_diags_mem {ns : List VNode} {lu : ℕ → Option ℕ}
    {acc : BuildSt × List VWord} {p : ℕ × VNode} {d : BuildDiag}
    (h : d ∈ acc.1.diags) : d ∈ (buildStep ns lu acc p).1.diags := by
  unfold buildStep
  have h1 := @emitNode_diags_mem ns acc.1 p.2 _ h
  rcases he : (emitNode ns acc.1 p.2) with ⟨cl?, st1⟩
  rw [he] at h1
  cases cl? with
  | none => exact h1
  | some cl =>
    simp only
    refine getSlot_diags_mem ?_
    rw [releaseOperand_diags_eq, releaseOperand_diags_eq]
    exact h1

theorem buildStep_diags_unsupported {ns : List VNode} {lu : ℕ → Option ℕ}
    {acc : BuildSt × List VWord} {p : ℕ × VNode}
    (hu : p.2.op.isUnsupported = true) :
    BuildDiag.unimplementedOpcode ∈ (buildStep ns lu acc p).1.diags := by
  unfold buildStep
  have he : emitNode ns acc.1 p.2
      = (some VWord.zero,
         { acc.1 with diags := acc.1.diags ++ [.unimplementedOpcode] }) := by
    cases hop : p.2.op <;> simp only [NOp.isUnsupported, hop] at hu <;>
      first
        | exact absurd hu (by decide)
        | ((unfold emitNode; rw [hop]) <;> rfl)
  rw [he]
  simp only
  refine getSlot_diags_mem ?_
  rw [releaseOperand_diags_eq, releaseOperand_diags_eq]
  exact List.mem_append_right _ (List.mem_singleton.2 rfl)

theorem foldl_buildStep_diags_mem (ns : List VNode) (lu : ℕ → Option ℕ)
    (l : List (ℕ × VNode)) {acc : BuildSt × List VWord} {d : BuildDiag}
    (h : d ∈ acc.1.diags) :
    d ∈ (l.foldl (buildStep ns lu) acc).1.diags := by
  induction l generalizing acc with
  | nil => exact h
  | cons p l ih => exact ih (buildStep_diags_mem h)

/-- **C6 (counterexample).** Building from the two-node tree `tan(X)` — which
contains the unsupported opcode TAN — does not fail: it returns a complete
blob.  The only effect of the unsupported node is the stderr diagnostic
"Unimplemented opcode" and an all-zero clause (opcode 0) in its place; no
`EUnsupportedOpcode` error exists anywhere in the sources. -/
theorem build_unsupported_returns_blob :
    build_v3_blob [⟨.varX, 0, none, none⟩, ⟨.tan, 0, some 0, none⟩]
      = ⟨[{ VWord.zero with out := 1 }, { VWord.zero with out := 1 },
          { VWord.zero with out := 1 }], 2, [.unimplementedOpcode]⟩ := by
  decide

/-- **C6 (amended).** Construction of a renderer from an expression tree
containing an unsupported opcode (TAN, RECIP, ATAN2, POW, NTH_ROOT, MOD,
NANFILL, COMPARE, VAR_FREE, CONST_VAR, ORACLE) does not fail and reports no
`EUnsupportedOpcode`: `build_v3_blob` prints the diagnostic "Unimplemented
opcode" to stderr for each such node, emits an opcode-0 clause in its place,
and returns the blob normally. -/
theorem foldl_buildStep_unsupported (ns : List VNode) (lu : ℕ → Option ℕ)
    (l : List (ℕ × VNode)) {acc : BuildSt × List VWord} {p : ℕ × VNode}
    (hp : p ∈ l) (hu : p.2.op.isUnsupported = true) :
    BuildDiag.unimplementedOpcode ∈ (l.foldl (buildStep ns lu) acc).1.diags := by
  induction l generalizing acc with
  | nil => cases hp
  | cons q l ih =>
    rcases List.mem_cons.1 hp with h | h
    · subst h
      exact foldl_buildStep_diags_mem ns lu l (buildStep_diags_unsupported hu)
    · exact ih h

theorem build_unsupported_diagnoses (ns : List VNode) (c : VNode)
    (hc : c ∈ ns) (hu : c.op.isUnsupported = true) :
    BuildDiag.unimplementedOpcode ∈ (build_v3_blob ns).diags := by
  obtain ⟨i, hi⟩ := List.getElem?_of_mem hc
  have hmem : (i, c) ∈ ns.enum := List.mk_mem_enum_iff_getElem?.2 hi
  simp only [build_v3_blob]
  exact getReg_diags_mem
    (foldl_buildStep_unsupported ns (lastUsed ns) ns.enum hmem hu)

/-- Witness for the amended C6 on the concrete `tan(X)` tree. -/
theorem build_unsupported_diagnoses_witness :
    BuildDiag.unimplementedOpcode
      ∈ (build_v3_blob [⟨.varX, 0, none, none⟩, ⟨.tan, 0, some 0, none⟩]).diags :=
  build_unsupported_diagnoses _ ⟨.tan, 0, some 0, none⟩
    (by decide) (by decide)

/-! ## C9: output slots of the tape compilers -/

/-! ### The banked prototype compiler `Tape::build` (renderable.hpp) -/

/-- A clause as `Tape::build` stores it (renderable.hpp:
`flat.push_back({static_cast<uint8_t>(c->op), banks, out, lhs, rhs})`): the
opcode field is the raw expression opcode. -/
structure TClause where
  opcode : NOp
  banks : ℕ
  out : ℕ
  lhs : ℕ
  rhs : ℕ
  deriving DecidableEq, Repr

/-- What `Tape::build` returns (clause list, `num_registers`,
`num_csg_choices`); the device copies and the constant array do not matter
here. -/
structure PTape where
  tape : List TClause
  num_regs : ℕ
  num_csg_choices : ℕ
  deriving DecidableEq, Repr

/-- `std::map::insert`: keeps an existing entry (unlike `operator[]`, which
overwrites).  `Tape::build` uses `insert` throughout. -/
def insKeep (m : ℕ → Option ℕ) (k v : ℕ) : ℕ → Option ℕ :=
  match m k with
  | some _ => m
  | none => upd m k (some v)

/-- State of the first pass of `Tape::build` (renderable.hpp lines 233-254):
the constants table, `last_used` (because of `insert`, the FIRST user of each
node wins) and the min/max count. -/
structure TPre where
  constants : ℕ → Option ℕ
  constantData : List ℚ
  lastUsed : ℕ → Option ℕ
  numCsgChoices : ℕ

/-- One node of the first pass.  The "Ran out of constants!" stderr warning
does not alter any data and is not tracked. -/
def tPreStep (pre : TPre) (p : ℕ × VNode) : TPre :=
  if p.2.op == .const then
    { pre with constants := insKeep pre.constants p.1 pre.constantData.length
               constantData := pre.constantData ++ [p.2.value] }
  else
    { pre with
        lastUsed :=
          (match p.2.lhs, p.2.rhs with
           | some l, some r => insKeep (insKeep pre.lastUsed l p.1) r p.1
           | some l, none => insKeep pre.lastUsed l p.1
           | none, some r => insKeep pre.lastUsed r p.1
           | none, none => pre.lastUsed)
        numCsgChoices :=
          pre.numCsgChoices + (if p.2.op == .min || p.2.op == .max then 1 else 0) }

/-- Register-allocation state of the second pass of `Tape::build`:
`free_registers`, `bound_registers` and `num_registers`.  `num_registers`
starts at 0. -/
structure TBuildSt where
  freeRegisters : List ℕ
  boundRegisters : ℕ → Option ℕ
  numRegisters : ℕ

/-- The operand lookup `f(id, mask)` of `Tape::build` (renderable.hpp lines
283-302): constants set the bank bit and address the constant array,
otherwise the bound register is used (0 with an stderr warning when
unbound).  Returns (new banks, operand index). -/
def tLookup (pre : TPre) (st : TBuildSt) (banks mask : ℕ)
    (id? : Option ℕ) : ℕ × ℕ :=
  match id? with
  | none => (banks, 0)
  | some id =>
    match pre.constants id with
    | some k => (banks + mask, k)
    | none =>
      match st.boundRegisters id with
      | some r => (banks, r)
      | none => (banks, 0)

/-- Register release at last (here: first-recorded, because of `insert`) use
(renderable.hpp lines 317-326).  The source dereferences the
`bound_registers` iterator without checking; an unbound operand leaves the
state unchanged here. -/
def tRelease (ns : List VNode) (pre : TPre) (i : ℕ)
    (st : TBuildSt) (h? : Option ℕ) : TBuildSt :=
  match h? with
  | none => st
  | some h =>
    if (nodeAt ns h).op ≠ .const ∧ pre.lastUsed h = some i then
      match st.boundRegisters h with
      | some r =>
        { st with freeRegisters := r :: st.freeRegisters
                  boundRegisters := upd st.boundRegisters h none }
      | none => st
    else st

/-- One node of the second pass of `Tape::build` (renderable.hpp lines
259-327): skip constants, allocate the output register (popping
`free_registers` or taking `num_registers++` — starting from 0), bind it,
look up the operands (a null RHS copies the LHS register), emit the clause
and release dead operands.  The "Ran out of registers!" warning is an stderr
print only. -/
def tBuildStep (ns : List VNode) (pre : TPre)
    (acc : TBuildSt × List TClause) (p : ℕ × VNode) : TBuildSt × List TClause :=
  if (pre.constants p.1).isSome then acc
  else
    let st := acc.1
    let o := match st.freeRegisters with
      | r :: rest => (r, { st with freeRegisters := rest })
      | [] => (st.numRegisters, { st with numRegisters := st.numRegisters + 1 })
    let st1 := { o.2 with boundRegisters := insKeep o.2.boundRegisters p.1 o.1 }
    let bl := tLookup pre st1 0 1 p.2.lhs
    let br := match p.2.rhs with
      | some r => tLookup pre st1 bl.1 2 (some r)
      | none => (bl.1, bl.2)
    let st2 := tRelease ns pre p.1 st1 p.2.lhs
    let st3 := tRelease ns pre p.1 st2 p.2.rhs
    (st3, acc.2 ++ [⟨p.2.op, br.1, o.1, bl.2, br.2⟩])

/-- `Tape::build` (renderable.hpp lines 230-351): the constants/`last_used`
pass, then the register-allocating flattening loop. -/
def tapeBuild (ns : List VNode) : PTape :=
  let pre := ns.enum.foldl tPreStep ⟨fun _ => none, [], fun _ => none, 0⟩
  let body := ns.enum.foldl (tBuildStep ns pre) (⟨[], fun _ => none, 0⟩, [])
  ⟨body.2, body.1.numRegisters, pre.numCsgChoices⟩

/-! ### Slot-range invariant of `build_v3_blob` -/

/-- Invariant of the fused builder's allocator: at least one slot is in use
(slot 0, the sentinel), and every free or bound slot lies in
`[1, num_slots)`. -/
def SlotInv (st : BuildSt) : Prop :=
  1 ≤ st.numSlots ∧
  (∀ s ∈ st.freeSlots, 1 ≤ s ∧ s < st.numSlots) ∧
  (∀ j r, st.boundSlots j = some r → 1 ≤ r ∧ r < st.numSlots)

theorem slotInv_of_fields {st st' : BuildSt} (h : SlotInv st)
    (hf : st'.freeSlots = st.freeSlots) (hb : st'.boundSlots = st.boundSlots)
    (hn : st'.numSlots = st.numSlots) : SlotInv st' := by
  obtain ⟨h1, hfr, hbd⟩ := h
  refine ⟨?_, ?_, ?_⟩
  · rw [hn]; exact h1
  · intro s hs
    rw [hn]
    exact hfr s (hf ▸ hs)
  · intro j r hr
    rw [hn]
    exact hbd j r (hb ▸ hr)

theorem slotInv_init : SlotInv ⟨[], fun _ => none, 1, []⟩ :=
  ⟨le_refl 1, fun s hs => absurd hs (List.not_mem_nil s),
   fun _ _ hr => Option.noConfusion hr⟩

/-- `getSlot` preserves the invariant, answers a slot in `[1, num_slots)`
and never shrinks `num_slots`. -/
theorem getSlot_inv {st : BuildSt} (h : SlotInv st) (id : ℕ) :
    SlotInv (getSlot st id).2 ∧
    1 ≤ (getSlot st id).1 ∧ (getSlot st id).1 < (getSlot st id).2.numSlots ∧
    st.numSlots ≤ (getSlot st id).2.numSlots := by
  obtain ⟨h1, hf, hb⟩ := h
  unfold getSlot
  cases hfs : st.freeSlots with
  | cons o rest =>
    dsimp only
    have ho := hf o (by rw [hfs]; exact List.mem_cons_self o rest)
    refine ⟨⟨h1, ?_, ?_⟩, ho.1, ho.2, le_refl _⟩
    · intro s hs
      exact hf s (by rw [hfs]; exact List.mem_cons_of_mem o hs)
    · intro j r hr
      dsimp only at hr ⊢
      by_cases hj : j = id
      · subst hj
        rw [upd_same] at hr
        cases hr
        exact ho
      · rw [upd_other _ _ hj] at hr
        exact hb j r hr
  | nil =>
    dsimp only
    refine ⟨⟨le_trans h1 (Nat.le_succ _), ?_, ?_⟩, h1, Nat.lt_succ_self _,
            Nat.le_succ _⟩
    · intro s hs
      cases hs
    · intro j r hr
      dsimp only at hr ⊢
      by_cases hj : j = id
      · subst hj
        rw [upd_same] at hr
        cases hr
        exact ⟨h1, Nat.lt_succ_self _⟩
      · rw [upd_other _ _ hj] at hr
        have hjr := hb j r hr
        exact ⟨hjr.1, lt_trans hjr.2 (Nat.lt_succ_self _)⟩

/-- `get_reg` never touches the allocator fields. -/
theorem getReg_state_eq (st : BuildSt) (id? : Option ℕ) :
    (getReg st id?).2.freeSlots = st.freeSlots ∧
    (getReg st id?).2.boundSlots = st.boundSlots ∧
    (getReg st id?).2.numSlots = st.numSlots := by
  unfold getReg
  cases id? with
  | none => exact ⟨rfl, rfl, rfl⟩
  | some i =>
    dsimp only
    cases st.boundSlots i with
    | none => exact ⟨rfl, rfl, rfl⟩
    | some r => exact ⟨rfl, rfl, rfl⟩

/-- Clause emission only reads registers: the allocator fields pass through
unchanged. -/
theorem emitNode_state_eq (ns : List VNode) (st : BuildSt) (c : VNode) :
    (emitNode ns st c).2.freeSlots = st.freeSlots ∧
    (emitNode ns st c).2.boundSlots = st.boundSlots ∧
    (emitNode ns st c).2.numSlots = st.numSlots := by
  cases hop : c.op <;> simp only [emitNode, hop]
  case const => exact ⟨trivial, trivial, trivial⟩
  case varX => exact ⟨trivial, trivial, trivial⟩
  case varY => exact ⟨trivial, trivial, trivial⟩
  case varZ => exact ⟨trivial, trivial, trivial⟩
  case square => exact getReg_state_eq st c.lhs
  case neg => exact getReg_state_eq st c.lhs
  case abs => exact getReg_state_eq st c.lhs
  all_goals
    first
      | exact ⟨trivial, trivial, trivial⟩
      | (unfold emitNode.emitCommutative
         split
         · exact getReg_state_eq st c.rhs
         · split
           · exact getReg_state_eq st c.lhs
           · obtain ⟨a1, a2, a3⟩ := getReg_state_eq (getReg st c.lhs).2 c.rhs
             obtain ⟨b1, b2, b3⟩ := getReg_state_eq st c.lhs
             exact ⟨a1.trans b1, a2.trans b2, a3.trans b3⟩)
      | (unfold emitNode.emitNoncommutative
         split
         · exact getReg_state_eq st c.rhs
         · split
           · exact getReg_state_eq st c.lhs
           · obtain ⟨a1, a2, a3⟩ := getReg_state_eq (getReg st c.lhs).2 c.rhs
             obtain ⟨b1, b2, b3⟩ := getReg_state_eq st c.lhs
             exact ⟨a1.trans b1, a2.trans b2, a3.trans b3⟩)

theorem releaseOperand_numSlots (ns : List VNode) (lu : ℕ → Option ℕ) (i : ℕ)
    (st : BuildSt) (h? : Option ℕ) :
    (releaseOperand ns lu i st h?).numSlots = st.numSlots := by
  unfold releaseOperand
  cases h? with
  | none => rfl
  | some h =>
    dsimp only
    split
    · cases st.boundSlots h <;> rfl
    · rfl

/-- Releasing a dead operand moves one bound slot to the free list: the
invariant survives. -/
theorem releaseOperand_inv (ns : List VNode) (lu : ℕ → Option ℕ) (i : ℕ)
    {st : BuildSt} (h? : Option ℕ) (h : SlotInv st) :
    SlotInv (releaseOperand ns lu i st h?) := by
  obtain ⟨h1, hf, hb⟩ := h
  unfold releaseOperand
  cases h? with
  | none => exact ⟨h1, hf, hb⟩
  | some hh =>
    dsimp only
    split
    · cases hbs : st.boundSlots hh with
      | none => exact ⟨h1, hf, hb⟩
      | some slot =>
        refine ⟨h1, ?_, ?_⟩
        · intro s hs
          rcases List.mem_cons.1 hs with hs | hs
          · subst hs
            exact hb hh _ hbs
          · exact hf s hs
        · intro j r hr
          dsimp only at hr ⊢
          by_cases hj : j = hh
          · subst hj
            rw [upd_same] at hr
            cases hr
          · rw [upd_other _ _ hj] at hr
            exact hb j r hr
    · exact ⟨h1, hf, hb⟩

/-- One loop iteration of the builder keeps the invariant, never shrinks
`num_slots`, and any clause it appends carries an output slot in
`[1, num_slots)` of the new state. -/
theorem buildStep_inv {ns : List VNode} {lu : ℕ → Option ℕ}
    {acc : BuildSt × List VWord} {p : ℕ × VNode} (h : SlotInv acc.1) :
    SlotInv (buildStep ns lu acc p).1 ∧
    acc.1.numSlots ≤ (buildStep ns lu acc p).1.numSlots ∧
    ∀ w ∈ (buildStep ns lu acc p).2,
      w ∈ acc.2 ∨ (1 ≤ w.out ∧ w.out < (buildStep ns lu acc p).1.numSlots) := by
  unfold buildStep
  obtain ⟨e1, e2, e3⟩ := emitNode_state_eq ns acc.1 p.2
  have hst1 : SlotInv (emitNode ns acc.1 p.2).2 := slotInv_of_fields h e1 e2 e3
  rcases he : emitNode ns acc.1 p.2 with ⟨cl?, st1⟩
  rw [he] at e3 hst1
  cases cl? with
  | none =>
    dsimp only
    exact ⟨hst1, le_of_eq e3.symm, fun w hw => Or.inl hw⟩
  | some cl =>
    dsimp only
    have h2 : SlotInv (releaseOperand ns lu p.1 st1 p.2.lhs) :=
      releaseOperand_inv ns lu p.1 p.2.lhs hst1
    have h3 : SlotInv
        (releaseOperand ns lu p.1 (releaseOperand ns lu p.1 st1 p.2.lhs) p.2.rhs) :=
      releaseOperand_inv ns lu p.1 p.2.rhs h2
    have hg := getSlot_inv h3 p.1
    refine ⟨hg.1, ?_, ?_⟩
    · calc acc.1.numSlots
          = (releaseOperand ns lu p.1 (releaseOperand ns lu p.1 st1 p.2.lhs)
              p.2.rhs).numSlots := by
            rw [releaseOperand_numSlots, releaseOperand_numSlots, e3]
        _ ≤ _ := hg.2.2.2
    · intro w hw
      rcases List.mem_append.1 hw with hw | hw
      · exact Or.inl hw
      · right
        rcases List.mem_singleton.1 hw with rfl
        exact ⟨hg.2.1, hg.2.2.1⟩

/-- Along the whole loop: the invariant holds and every emitted clause's
output slot is in `[1, num_slots)` of the final state. -/
theorem foldl_buildStep_inv (ns : List VNode) (lu : ℕ → Option ℕ)
    (l : List (ℕ × VNode)) {acc : BuildSt × List VWord} (h : SlotInv acc.1)
    (hprev : ∀ w ∈ acc.2, 1 ≤ w.out ∧ w.out < acc.1.numSlots) :
    SlotInv (l.foldl (buildStep ns lu) acc).1 ∧
    ∀ w ∈ (l.foldl (buildStep ns lu) acc).2,
      1 ≤ w.out ∧ w.out < (l.foldl (buildStep ns lu) acc).1.numSlots := by
  induction l generalizing acc with
  | nil => exact ⟨h, hprev⟩
  | cons q l ih =>
    rw [List.foldl_cons]
    obtain ⟨hs, hmono, hmem⟩ := @buildStep_inv ns lu acc q h
    refine ih hs ?_
    intro w hw
    rcases hmem w hw with hold | hnew
    · obtain ⟨u1, u2⟩ := hprev w hold
      exact ⟨u1, lt_of_lt_of_le u2 hmono⟩
    · exact hnew

/-- The axis-binding step: either a `getSlot` call or a no-op. -/
theorem slotInv_axis {c : Prop} [inst : Decidable c] {st : BuildSt}
    (h : SlotInv st) (id k : ℕ) :
    SlotInv (if c then getSlot st id else (k, st)).2 := by
  split
  · exact (getSlot_inv h id).1
  · exact h

/-- C9 (amended): in the fused compiler `build_v3_blob` every emitted
clause's output slot lies in `[1, num_slots)` — slot 0 is never allocated
as an output and serves as the "no operand" sentinel.  The clause words are
the tape without its leading axis-header word and its trailing end word.
(The claim fails for the prototype compiler `Tape::build`, which allocates
output registers from 0.) -/
theorem build_out_slot_in_range (ns : List VNode) (w : VWord)
    (hw : w ∈ ((build_v3_blob ns).tape.drop 1).dropLast) :
    1 ≤ w.out ∧ w.out < (build_v3_blob ns).num_slots := by
  simp only [build_v3_blob, List.cons_append, List.drop_one, List.tail_cons,
    List.dropLast_concat] at hw ⊢
  rw [(getReg_state_eq _ _).2.2]
  refine (foldl_buildStep_inv ns (lastUsed ns) ns.enum ?_ ?_).2 w hw
  · exact slotInv_axis (slotInv_axis (slotInv_axis slotInv_init _ _) _ _) _ _
  · exact fun u hu => absurd hu (List.not_mem_nil u)

/-- C9, counterexample: on the single-node tree `X` the prototype compiler
`Tape::build` (renderable.hpp) emits its one clause with output register 0
while one register is in use — output registers are allocated from 0, so 0
is not reserved as a sentinel by this compiler. -/
theorem tape_build_allocates_register_zero :
    (tapeBuild [⟨.varX, 0, none, none⟩]).tape = [⟨.varX, 0, 0, 0, 0⟩] ∧
    (tapeBuild [⟨.varX, 0, none, none⟩]).num_regs = 1 :=
  ⟨by decide, by decide⟩

/-- Witness for the amended C9 on the tree `square(X)`: the emitted square
clause sits strictly between slot 0 and `num_slots = 2`. -/
theorem build_out_slot_in_range_witness :
    1 ≤ (VWord.mk .squareLhs 1 1 0 0 0).out ∧
    (VWord.mk .squareLhs 1 1 0 0 0).out
      < (build_v3_blob [⟨.varX, 0, none, none⟩,
                        ⟨.square, 0, some 0, none⟩]).num_slots :=
  build_out_slot_in_range _ _ (by decide)

/-! ## C10 / C5: the interval tile kernel as a state transformer

`v3_eval_tiles_i` (v3.cu lines 83-336) is modelled one thread at a time as a
transformer of the shared state (tape pool, claim counter, depth image, tile
list).  Pointer walks over the tape are fueled; running out of fuel is an
artifact of the embedding (`outOfFuel`), while a CUDA `assert` firing is
`assertFail`.  The `data` pointer is a nonnegative index into `tape_data`;
jump arithmetic clamps at 0 exactly where the C pointer arithmetic would
leave the allocation. -/

/-- Modelled from the spec: the pool holds about 65536 chunks
(parameters.hpp is absent from the repository). -/
def NUM_SUBTAPES : ℕ := 65536

/-- Modelled from the spec: a subtape chunk holds 64 clauses. -/
def SUBTAPE_CHUNK_SIZE : ℕ := 64

/-- `v3_tile_node_t`: a tile's packed position (or -1 when masked), its tape
handle and the next-node link. -/
structure V3TileNode where
  position : ℤ
  tape : ℕ
  next : ℤ
  deriving DecidableEq, Repr

/-- `unpack` (v3.cu lines 16-22) on a nonnegative position. -/
structure Int4 where
  x : ℕ
  y : ℕ
  z : ℕ
  w : ℕ
  deriving DecidableEq, Repr

def unpack (pos tilesPerSide : ℕ) : Int4 :=
  ⟨pos % tilesPerSide,
   (pos / tilesPerSide) % tilesPerSide,
   (pos / tilesPerSide) / tilesPerSide,
   pos % (tilesPerSide * tilesPerSide)⟩

/-- Shared state touched by one `v3_eval_tiles_i` thread. -/
structure V3EvalSt where
  tapeData : ℕ → VWord
  tapeIndex : ℕ
  image : ℕ → ℤ
  tiles : ℕ → V3TileNode

inductive EvalErr where
  | assertFail
  | outOfFuel
  deriving DecidableEq, Repr

/-- The forward interval pass (v3.cu lines 116-178): starting just past the
tile's tape handle, step every clause, follow jumps, and record the choice
codes in order.  Returns the final slots, the choice list, `has_any_choice`
and the position of the end word (`data` when the loop breaks). -/
def vFwd (tp : ℕ → VWord) : ℕ → ℕ → (ℕ → GInterval) → List ℕ → Bool →
    Except EvalErr ((ℕ → GInterval) × List ℕ × Bool × ℕ)
  | 0, _, _, _, _ => .error .outOfFuel
  | fuel + 1, pos, regs, chs, hasAny =>
    let p := pos + 1
    let w := tp p
    if w.op = .nop then .ok (regs, chs, hasAny, p)
    else if w.op = .jump then
      vFwd tp fuel ((p : ℤ) + w.target).toNat regs chs hasAny
    else
      let regs' := vStepIRegs regs w
      if w.op.hasChoice then
        let c := vChoiceOf regs w
        vFwd tp fuel p regs' (chs ++ [c]) (hasAny || decide (c ≠ 0))
      else
        vFwd tp fuel p regs' chs hasAny

/-- The atomic pool claim with its bound check (v3.cu lines 229-232 and
272-275): `out_index = atomicAdd(tape_index, SUBTAPE_CHUNK_SIZE)` followed by
`assert(out_index + out_offset < NUM_SUBTAPES * SUBTAPE_CHUNK_SIZE)` with
`out_offset = SUBTAPE_CHUNK_SIZE`.  Returns (claimed index, new counter). -/
def claimChunk (tapeIndex : ℕ) : Except EvalErr (ℕ × ℕ) :=
  if tapeIndex + SUBTAPE_CHUNK_SIZE < NUM_SUBTAPES * SUBTAPE_CHUNK_SIZE then
    .ok (tapeIndex, tapeIndex + SUBTAPE_CHUNK_SIZE)
  else .error .assertFail

/-- State of the backward tape-pushing walk (v3.cu lines 219-330). -/
structure PushSt where
  tapeData : ℕ → VWord
  tapeIndex : ℕ
  data : ℕ
  outIndex : ℕ
  outOffset : ℕ
  active : ℕ → Bool
  ci : ℤ

/-- The backward specialization walk (v3.cu lines 241-330): read `*--data`,
break at opcode 0, follow jumps, decrement the choice counter at every
min/max clause, skip inactive outputs, cross chunk boundaries by claiming a
fresh chunk and writing the two jump links, and emit (or elide, or rewrite
to a COPY variant) each active clause according to its recorded choice. -/
def vPush (chs : List ℕ) : ℕ → PushSt → Except EvalErr PushSt
  | 0, _ => .error .outOfFuel
  | fuel + 1, s =>
    let p := s.data - 1
    let d := s.tapeData p
    if d.op = .nop then .ok { s with data := p }
    else if d.op = .jump then
      vPush chs fuel { s with data := ((p : ℤ) + d.target).toNat }
    else
      let hc := d.op.hasChoice
      let ci := s.ci - (if hc then 1 else 0)
      if s.active d.out = false then
        vPush chs fuel { s with data := p, ci := ci }
      else if hc = true ∧ ci < 0 then .error .assertFail
      else
        let choice := if hc then chs.getD ci.toNat 0 else 0
        let oo := s.outOffset - 1
        let link : Except EvalErr (ℕ × ℕ × ℕ × (ℕ → VWord)) :=
          if oo = 0 then
            match claimChunk s.tapeIndex with
            | .error e => .error e
            | .ok (ni, ti) =>
              let no := SUBTAPE_CHUNK_SIZE - 1
              let delta : ℤ := (s.outIndex : ℤ) - ((ni + no : ℕ) : ℤ)
              let w1 := s.tapeData (ni + no)
              let td1 := upd s.tapeData (ni + no)
                { w1 with op := .jump, target := delta }
              let w2 := td1 s.outIndex
              let td2 := upd td1 s.outIndex
                { w2 with op := .jump, target := -delta }
              .ok (ni, ti, no - 1, td2)
          else .ok (s.outIndex, s.tapeIndex, oo, s.tapeData)
        match link with
        | .error e => .error e
        | .ok (oIdx, tIdx, oOff, td) =>
          let a1 := upd s.active d.out false
          if choice = 0 then
            let a2 := if d.lhs ≠ 0 then upd a1 d.lhs true else a1
            let a3 := if d.rhs ≠ 0 then upd a2 d.rhs true else a2
            vPush chs fuel ⟨upd td (oIdx + oOff) d, tIdx, p, oIdx, oOff, a3, ci⟩
          else if choice = 1 then
            let a2 := upd a1 d.lhs true
            if d.lhs = d.out then
              vPush chs fuel ⟨td, tIdx, p, oIdx, oOff + 1, a2, ci⟩
            else
              vPush chs fuel
                ⟨upd td (oIdx + oOff) { d with op := .copyLhs }, tIdx, p, oIdx,
                 oOff, a2, ci⟩
          else if choice = 2 then
            if d.rhs ≠ 0 then
              let a2 := upd a1 d.rhs true
              if d.rhs = d.out then
                vPush chs fuel ⟨td, tIdx, p, oIdx, oOff + 1, a2, ci⟩
              else
                vPush chs fuel
                  ⟨upd td (oIdx + oOff) { d with op := .copyRhs }, tIdx, p, oIdx,
                   oOff, a2, ci⟩
            else
              vPush chs fuel
                ⟨upd td (oIdx + oOff) { d with op := .copyImm }, tIdx, p, oIdx,
                 oOff, a1, ci⟩
          else
            vPush chs fuel ⟨upd td (oIdx + oOff) d, tIdx, p, oIdx, oOff, a1, ci⟩

/-- The slot initialisation (v3.cu lines 104-107: the header word's three
axis bytes are bound to the tile's three input intervals over arbitrary
initial slot contents `σ0`) followed by the forward pass from the tile's
tape handle. -/
def vFwdTile (vals σ0 : ℕ → GInterval) (fuel : ℕ) (st : V3EvalSt) (t : ℕ) :
    Except EvalErr ((ℕ → GInterval) × List ℕ × Bool × ℕ) :=
  let hdr := st.tapeData 0
  let regs0 := upd (upd (upd σ0 hdr.out (vals (t * 3))) hdr.lhs
    (vals (t * 3 + 1))) hdr.rhs (vals (t * 3 + 2))
  vFwd st.tapeData fuel (st.tiles t).tape regs0 [] false

/-- One thread of `v3_eval_tiles_i` (v3.cu lines 83-336): masked check,
forward interval pass, classification (empty, occlusion-masked, filled), the
`!has_any_choice` early return, and otherwise the tape push writing the new
subtape and the tile's new tape handle. -/
def v3_eval_tile_i (tilesPerSide : ℕ) (vals σ0 : ℕ → GInterval)
    (fuel : ℕ) (st : V3EvalSt) (t : ℕ) : Except EvalErr V3EvalSt :=
  let node := st.tiles t
  if node.position = -1 then .ok st
  else
    match vFwdTile vals σ0 fuel st t with
    | .error e => .error e
    | .ok (regs, chs, hasAny, endPos) =>
      let iOut := (st.tapeData endPos).out
      if (regs iOut).lo > 0 then
        .ok { st with tiles := upd st.tiles t { node with position := -1 } }
      else
        let pos := unpack node.position.toNat tilesPerSide
        if (pos.z : ℤ) < st.image pos.w then
          .ok { st with tiles := upd st.tiles t { node with position := -1 } }
        else if (regs iOut).hi < 0 then
          .ok { st with
                  tiles := upd st.tiles t { node with position := -1 }
                  image := upd st.image pos.w (max (st.image pos.w) (pos.z : ℤ)) }
        else if hasAny = false then .ok st
        else
          match claimChunk st.tapeIndex with
          | .error e => .error e
          | .ok (outIndex, ti) =>
            let oo1 := SUBTAPE_CHUNK_SIZE - 1
            let td1 := upd st.tapeData (outIndex + oo1) (st.tapeData endPos)
            let active0 := upd (fun _ => false) iOut true
            match vPush chs fuel
                ⟨td1, ti, endPos, outIndex, oo1, active0, (chs.length : ℤ)⟩ with
            | .error e => .error e
            | .ok s =>
              let oo := s.outOffset - 1
              .ok { st with
                      tapeData := upd s.tapeData (s.outIndex + oo) (s.tapeData s.data)
                      tapeIndex := s.tapeIndex
                      tiles := upd st.tiles t { node with tape := s.outIndex + oo } }

/-- A tile whose forward pass reaches the ambiguous branch (not empty, not
occlusion-masked, not filled) with every recorded choice code 0. -/
def ambiguousNoChoice (tilesPerSide : ℕ) (vals σ0 : ℕ → GInterval)
    (fuel : ℕ) (st : V3EvalSt) (t : ℕ) : Bool :=
  match vFwdTile vals σ0 fuel st t with
  | .error _ => false
  | .ok (regs, chs, _, endPos) =>
    let iOut := (st.tapeData endPos).out
    let pos := unpack (st.tiles t).position.toNat tilesPerSide
    chs.all (fun c => c == 0) &&
    !(decide ((regs iOut).lo > 0)) &&
    !(decide ((pos.z : ℤ) < st.image pos.w)) &&
    !(decide ((regs iOut).hi < 0))

/-- A tile whose forward pass reaches the ambiguous branch with
`has_any_choice` set (some recorded choice is 1 or 2). -/
def ambiguousWithChoice (tilesPerSide : ℕ) (vals σ0 : ℕ → GInterval)
    (fuel : ℕ) (st : V3EvalSt) (t : ℕ) : Bool :=
  match vFwdTile vals σ0 fuel st t with
  | .error _ => false
  | .ok (regs, _, hasAny, endPos) =>
    let iOut := (st.tapeData endPos).out
    let pos := unpack (st.tiles t).position.toNat tilesPerSide
    hasAny &&
    !(decide ((regs iOut).lo > 0)) &&
    !(decide ((pos.z : ℤ) < st.image pos.w)) &&
    !(decide ((regs iOut).hi < 0))

/-- When every choice recorded along the forward pass is 0, the accumulated
`has_any_choice` flag keeps its initial value, and the choice list only
grows. -/
theorem vFwd_all_zero (tp : ℕ → VWord) (fuel : ℕ) :
    ∀ (pos : ℕ) (regs : ℕ → GInterval) (chs : List ℕ) (b : Bool)
      (out : (ℕ → GInterval) × List ℕ × Bool × ℕ),
    vFwd tp fuel pos regs chs b = .ok out →
    (∀ c ∈ out.2.1, c = 0) →
    out.2.2.1 = b ∧ ∃ l, out.2.1 = chs ++ l := by
  induction fuel with
  | zero =>
    intro pos regs chs b out h hz
    cases h
  | succ n ih =>
    intro pos regs chs b out h hz
    rw [vFwd] at h
    split at h
    · cases h
      exact ⟨rfl, [], (List.append_nil chs).symm⟩
    · split at h
      · exact ih _ _ _ _ _ h hz
      · split at h
        · obtain ⟨h1, l, h2⟩ := ih _ _ _ _ _ h hz
          have hc : vChoiceOf regs (tp (pos + 1)) = 0 := by
            refine hz _ ?_
            rw [h2]
            exact List.mem_append_left l
              (List.mem_append_right chs (List.mem_singleton.2 rfl))
          rw [hc] at h1
          simp only [ne_eq, decide_not, decide_True, Bool.not_true,
            Bool.or_false] at h1
          refine ⟨h1, [vChoiceOf regs (tp (pos + 1))] ++ l, ?_⟩
          rw [h2, List.append_assoc]
        · exact ih _ _ _ _ _ h hz

/-- C10: a tile reaching the ambiguous branch with every recorded choice
code 0 makes the evaluator return with the shared state untouched: no
subtape chunk is claimed, the tape data and claim counter are unchanged,
and the tile keeps its parent tape handle (the `!has_any_choice` early
return, v3.cu lines 215-217). -/
theorem v3_no_choice_frame (tilesPerSide : ℕ) (vals σ0 : ℕ → GInterval)
    (fuel : ℕ) (st : V3EvalSt) (t : ℕ)
    (hpos : (st.tiles t).position ≠ -1)
    (hamb : ambiguousNoChoice tilesPerSide vals σ0 fuel st t = true) :
    v3_eval_tile_i tilesPerSide vals σ0 fuel st t = .ok st := by
  simp only [ambiguousNoChoice] at hamb
  simp only [v3_eval_tile_i]
  rw [if_neg hpos]
  rcases hfwd : vFwdTile vals σ0 fuel st t with e | ⟨regs, chs, hasAny, endPos⟩
  · rw [hfwd] at hamb
    cases hamb
  · rw [hfwd] at hamb
    simp only [Bool.and_eq_true, Bool.not_eq_true', decide_eq_false_iff_not,
      List.all_eq_true, beq_iff_eq] at hamb
    obtain ⟨⟨⟨hz, h1⟩, h2⟩, h3⟩ := hamb
    have hfwd' := hfwd
    rw [vFwdTile] at hfwd'
    have hha : hasAny = false :=
      (vFwd_all_zero st.tapeData fuel _ _ _ _ _ hfwd' hz).1
    simp only
    rw [if_neg h1, if_neg h2, if_neg h3, hha]
    rw [if_pos rfl]

/-- Witness for C10: an ambiguous `min(x, x)` tile over `x ∈ [-1, 1]`
(choice code 0) leaves the whole state unchanged. -/
theorem v3_no_choice_frame_witness :
    v3_eval_tile_i 1 (fun _ => ⟨-1, 1⟩) (fun _ => ⟨0, 0⟩) 8
      ⟨fun i => if i = 1 then ⟨.minLhsRhs, 2, 1, 1, 0, 0⟩
                else if i = 2 then ⟨.nop, 2, 0, 0, 0, 0⟩
                else ⟨.nop, 1, 0, 0, 0, 0⟩,
       0, fun _ => 0, fun _ => ⟨0, 0, -1⟩⟩ 0
      = .ok ⟨fun i => if i = 1 then ⟨.minLhsRhs, 2, 1, 1, 0, 0⟩
                      else if i = 2 then ⟨.nop, 2, 0, 0, 0, 0⟩
                      else ⟨.nop, 1, 0, 0, 0, 0⟩,
             0, fun _ => 0, fun _ => ⟨0, 0, -1⟩⟩ :=
  v3_no_choice_frame 1 (fun _ => ⟨-1, 1⟩) (fun _ => ⟨0, 0⟩) 8
    ⟨fun i => if i = 1 then ⟨.minLhsRhs, 2, 1, 1, 0, 0⟩
              else if i = 2 then ⟨.nop, 2, 0, 0, 0, 0⟩
              else ⟨.nop, 1, 0, 0, 0, 0⟩,
     0, fun _ => 0, fun _ => ⟨0, 0, -1⟩⟩ 0 (by decide) (by rfl)

/-- C5 (amended): when the pool claim would exceed the pool's capacity on a
tile that needs specialization, the only guard is the CUDA
`assert(out_index + out_offset < NUM_SUBTAPES * SUBTAPE_CHUNK_SIZE)`
(v3.cu lines 231-232): the evaluation ends in an assertion failure.  No
`ESubtapePoolExhausted` code is reported and the tile is not rendered with
its parent tape — there is no per-tile fallback path in the kernel. -/
theorem v3_pool_exhaustion_asserts (tilesPerSide : ℕ) (vals σ0 : ℕ → GInterval)
    (fuel : ℕ) (st : V3EvalSt) (t : ℕ)
    (hpos : (st.tiles t).position ≠ -1)
    (hamb : ambiguousWithChoice tilesPerSide vals σ0 fuel st t = true)
    (hexh : ¬(st.tapeIndex + SUBTAPE_CHUNK_SIZE
              < NUM_SUBTAPES * SUBTAPE_CHUNK_SIZE)) :
    v3_eval_tile_i tilesPerSide vals σ0 fuel st t = .error .assertFail := by
  simp only [ambiguousWithChoice] at hamb
  simp only [v3_eval_tile_i]
  rw [if_neg hpos]
  rcases hfwd : vFwdTile vals σ0 fuel st t with e | ⟨regs, chs, hasAny, endPos⟩
  · rw [hfwd] at hamb
    cases hamb
  · rw [hfwd] at hamb
    simp only [Bool.and_eq_true, Bool.not_eq_true', decide_eq_false_iff_not]
      at hamb
    obtain ⟨⟨⟨hha, h1⟩, h2⟩, h3⟩ := hamb
    simp only
    rw [if_neg h1, if_neg h2, if_neg h3, hha]
    rw [if_neg (by simp : ¬(true = false))]
    rw [claimChunk, if_neg hexh]

/-- C5, counterexample to the spec's claim: with the pool counter at its
last chunk boundary, an ambiguous tile carrying an unambiguous `min` choice
reaches the pool claim and the evaluation fails the assert — it does not
report `ESubtapePoolExhausted` and does not fall back to the parent tape. -/
theorem v3_pool_exhaustion_counterexample :
    v3_eval_tile_i 1 (fun _ => ⟨-1, 1⟩) (fun _ => ⟨0, 0⟩) 8
      ⟨fun i => if i = 1 then ⟨.minLhsImm, 2, 1, 0, 5, 0⟩
                else if i = 2 then ⟨.nop, 2, 0, 0, 0, 0⟩
                else ⟨.nop, 1, 0, 0, 0, 0⟩,
       4194240, fun _ => 0, fun _ => ⟨0, 0, -1⟩⟩ 0
      = .error .assertFail := rfl

/-- Witness for the amended C5, on a `min(x, 7)` tile at the exhausted
counter. -/
theorem v3_pool_exhaustion_asserts_witness :
    v3_eval_tile_i 1 (fun _ => ⟨-1, 1⟩) (fun _ => ⟨0, 0⟩) 9
      ⟨fun i => if i = 1 then ⟨.minLhsImm, 2, 1, 0, 7, 0⟩
                else if i = 2 then ⟨.nop, 2, 0, 0, 0, 0⟩
                else ⟨.nop, 1, 0, 0, 0, 0⟩,
       4194272, fun _ => 0, fun _ => ⟨0, 0, -1⟩⟩ 0
      = .error .assertFail :=
  v3_pool_exhaustion_asserts 1 (fun _ => ⟨-1, 1⟩) (fun _ => ⟨0, 0⟩) 9
    ⟨fun i => if i = 1 then ⟨.minLhsImm, 2, 1, 0, 7, 0⟩
              else if i = 2 then ⟨.nop, 2, 0, 0, 0, 0⟩
              else ⟨.nop, 1, 0, 0, 0, 0⟩,
     4194272, fun _ => 0, fun _ => ⟨0, 0, -1⟩⟩ 0
    (by decide) (by rfl) (by decide)
